import Mathlib

/-!
Verification of the regulatory-document ingestion and chunking pipeline
(`backend/alf/improved_processor.py`, with the batch deduplicator of
`backend/alf/txt_processor.py`).

Python strings are modelled as `List Char`; every definition is a direct
transcription of the corresponding Python function, over that model.
Regular expressions from the source appear as hand-compiled deterministic
matchers; each matcher's doc comment names the regex it implements.
-/

set_option maxHeartbeats 1000000

/-- Python whitespace predicate for ASCII text: the characters recognised by
`str.split`, `str.strip` and the regex class `\s`. -/
def isPySpace (c : Char) : Bool :=
  c = ' ' || c = '\t' || c = '\n' || c = '\r' || c = '\x0b' || c = '\x0c'

/-- True when the string contains at least one non-whitespace character,
i.e. when Python `s.strip()` is truthy. -/
def hasNonSpace (s : List Char) : Bool :=
  s.any (fun c => !isPySpace c)

/-- Python `s.lstrip()`. -/
def pyLStrip (s : List Char) : List Char := s.dropWhile isPySpace

/-- Python `s.rstrip()`. -/
def pyRStrip (s : List Char) : List Char :=
  (s.reverse.dropWhile isPySpace).reverse

/-- Python `s.strip()`. -/
def pyStrip (s : List Char) : List Char := pyRStrip (pyLStrip s)

/-- Accumulator worker for `pyWords`: `cur` holds the reversed current word. -/
def pyWordsAux : List Char → List Char → List (List Char)
  | cur, [] => if cur.isEmpty then [] else [cur.reverse]
  | cur, c :: rest =>
    if isPySpace c then
      if cur.isEmpty then pyWordsAux [] rest
      else cur.reverse :: pyWordsAux [] rest
    else pyWordsAux (c :: cur) rest

/-- Python `s.split()` with no argument: maximal runs of non-whitespace. -/
def pyWords (s : List Char) : List (List Char) := pyWordsAux [] s

/-- Python `len(s.split())`, the word count used throughout the pipeline. -/
def countWords (s : List Char) : Nat := (pyWords s).length

/-- Accumulator worker for `splitNL`; `cur` holds the reversed current line. -/
def splitNLAux : List Char → List Char → List (List Char)
  | cur, [] => [cur.reverse]
  | cur, c :: rest =>
    if c = '\n' then cur.reverse :: splitNLAux [] rest
    else splitNLAux (c :: cur) rest

/-- Python `s.split('\n')`: keeps empty pieces, yields at least one piece. -/
def splitNL (s : List Char) : List (List Char) := splitNLAux [] s

/-- Python `sep.join(pieces)`. -/
def joinSep (sep : List Char) : List (List Char) → List Char
  | [] => []
  | [l] => l
  | l :: rest => l ++ sep ++ joinSep sep rest

/-- Python ASCII `c.lower()`. -/
def asciiLower (c : Char) : Char :=
  if 'A' ≤ c && c ≤ 'Z' then Char.ofNat (c.toNat + 32) else c

/-- Python `s.lower()` on ASCII text. -/
def lowerStr (s : List Char) : List Char := s.map asciiLower

/-- Boolean prefix test on character lists. -/
def isPrefixB : List Char → List Char → Bool
  | [], _ => true
  | _ :: _, [] => false
  | a :: as, b :: bs => a = b && isPrefixB as bs

/-- Python substring test `needle in hay`. -/
def containsSub (needle : List Char) : List Char → Bool
  | [] => needle.isEmpty
  | c :: rest => isPrefixB needle (c :: rest) || containsSub needle rest

/-- Case-insensitive substring test (both sides ASCII-lowered), modelling a
`re.IGNORECASE` literal search. -/
def containsCI (needle hay : List Char) : Bool :=
  containsSub (lowerStr needle) (lowerStr hay)

/-- Lowercase-letter test, the regex class `[a-z]`. -/
def isLowerAZ (c : Char) : Bool := 'a' ≤ c && c ≤ 'z'

/-- Digit test, the regex class `\d` on ASCII. -/
def isDigitC (c : Char) : Bool := '0' ≤ c && c ≤ '9'

/-- Roman-numeral letter, the regex class `[ivx]`. -/
def isRomanC (c : Char) : Bool := c = 'i' || c = 'v' || c = 'x'

/-- Word character, the regex class `\w` on ASCII. -/
def isWordC (c : Char) : Bool :=
  isLowerAZ c || ('A' ≤ c && c ≤ 'Z') || isDigitC c || c = '_'

/-- Alternative `\([a-z])\s` of the chunker's list regex (rest must begin
with `(x)` followed by one whitespace character). -/
def matchParenLower : List Char → Bool
  | '(' :: c :: ')' :: d :: _ => isLowerAZ c && isPySpace d
  | _ => false

/-- Alternative `\(\d+\)\s` of the chunker's list regex. -/
def matchParenDigits : List Char → Bool
  | '(' :: rest =>
    let ds := rest.takeWhile isDigitC
    let rest2 := rest.dropWhile isDigitC
    !ds.isEmpty &&
      (match rest2 with
       | ')' :: d :: _ => isPySpace d
       | _ => false)
  | _ => false

/-- Alternative `[a-z]\.\s` of the chunker's list regex. -/
def matchLowerDot : List Char → Bool
  | c :: '.' :: d :: _ => isLowerAZ c && isPySpace d
  | _ => false

/-- Alternative `[ivx]+\.\s` of the chunker's list regex. -/
def matchRomanDot (l : List Char) : Bool :=
  let rs := l.takeWhile isRomanC
  !rs.isEmpty &&
    (match l.dropWhile isRomanC with
     | '.' :: d :: _ => isPySpace d
     | _ => false)

/-- Alternative `•\s` of the chunker's list regex. -/
def matchBullet : List Char → Bool
  | '•' :: d :: _ => isPySpace d
  | _ => false

/-- Alternative `-\s` of the chunker's list regex. -/
def matchDash : List Char → Bool
  | '-' :: d :: _ => isPySpace d
  | _ => false

/-- The `SemanticChunker` list-item pattern
`^\s*(?:\([a-z]\)|\(\d+\)|[a-z]\.|[ivx]+\.|•|-)\s` applied with `.match`
(anchored at the start of the line): leading whitespace is skipped and one
of the marker alternatives must follow, then one whitespace character. -/
def listPatternMatch (line : List Char) : Bool :=
  let r := line.dropWhile isPySpace
  matchParenLower r || matchParenDigits r || matchLowerDot r ||
    matchRomanDot r || matchBullet r || matchDash r

/-!
MD5, as used by `hashlib.md5` in `SemanticChunker._generate_chunk_id`.
Words are natural numbers reduced modulo `2 ^ 32` at every step.
-/

/-- UTF-8 encoding of one character, modelling Python `str.encode()`. -/
def utf8Bytes (c : Char) : List Nat :=
  let n := c.toNat
  if n < 0x80 then [n]
  else if n < 0x800 then
    [0xC0 + n / 0x40, 0x80 + n % 0x40]
  else if n < 0x10000 then
    [0xE0 + n / 0x1000, 0x80 + n / 0x40 % 0x40, 0x80 + n % 0x40]
  else
    [0xF0 + n / 0x40000, 0x80 + n / 0x1000 % 0x40, 0x80 + n / 0x40 % 0x40,
      0x80 + n % 0x40]

/-- UTF-8 encoding of a string as a byte list. -/
def utf8Encode (s : List Char) : List Nat := s.flatMap utf8Bytes

/-- MD5 per-round shift amounts. -/
def md5S : List Nat :=
  [7, 12, 17, 22, 7, 12, 17, 22, 7, 12, 17, 22, 7, 12, 17, 22,
   5, 9, 14, 20, 5, 9, 14, 20, 5, 9, 14, 20, 5, 9, 14, 20,
   4, 11, 16, 23, 4, 11, 16, 23, 4, 11, 16, 23, 4, 11, 16, 23,
   6, 10, 15, 21, 6, 10, 15, 21, 6, 10, 15, 21, 6, 10, 15, 21]

/-- MD5 sine-derived constant table. -/
def md5K : List Nat :=
  [3614090360, 3905402710, 606105819, 3250441966, 4118548399, 1200080426,
   2821735955, 4249261313, 1770035416, 2336552879, 4294925233, 2304563134,
   1804603682, 4254626195, 2792965006, 1236535329, 4129170786, 3225465664,
   643717713, 3921069994, 3593408605, 38016083, 3634488961, 3889429448,
   568446438, 3275163606, 4107603335, 1163531501, 2850285829, 4243563512,
   1735328473, 2368359562, 4294588738, 2272392833, 1839030562, 4259657740,
   2763975236, 1272893353, 4139469664, 3200236656, 681279174, 3936430074,
   3572445317, 76029189, 3654602809, 3873151461, 530742520, 3299628645,
   4096336452, 1126891415, 2878612391, 4237533241, 1700485571, 2399980690,
   4293915773, 2240044497, 1873313359, 4264355552, 2734768916, 1309151649,
   4149444226, 3174756917, 718787259, 3951481745]

/-- 32-bit mask. -/
def w32 (n : Nat) : Nat := n % 4294967296

/-- 32-bit left rotation. -/
def rotl32 (x s : Nat) : Nat :=
  w32 (x * 2 ^ s) ||| (w32 x) / 2 ^ (32 - s)

/-- Bitwise complement within 32 bits. -/
def not32 (x : Nat) : Nat := 4294967295 - w32 x

/-- MD5 padding: append `0x80`, zero bytes to 56 mod 64, then the 64-bit
little-endian bit length. -/
def md5Pad (msg : List Nat) : List Nat :=
  let len := msg.length
  let padLen := (55 + 64 - len % 64) % 64 + 1
  let bitLen := (len * 8) % (2 ^ 64)
  msg ++ 0x80 :: List.replicate (padLen - 1) 0 ++
    (List.range 8).map (fun i => bitLen / 2 ^ (8 * i) % 256)

/-- Little-endian 32-bit words of one 64-byte block. -/
def md5Words (block : List Nat) : List Nat :=
  (List.range 16).map (fun i =>
    ((block.drop (4 * i)).take 4).reverse.foldl (fun a b => a * 256 + b) 0)

/-- One MD5 round: mixes word `m`, constant `k`, shift `s` into the state. -/
def md5Round (i : Nat) (st : Nat × Nat × Nat × Nat) (m : List Nat) :
    Nat × Nat × Nat × Nat :=
  let (a, b, c, d) := st
  let f :=
    if i < 16 then (b &&& c) ||| (not32 b &&& d)
    else if i < 32 then (d &&& b) ||| (not32 d &&& c)
    else if i < 48 then b ^^^ c ^^^ d
    else c ^^^ (b ||| not32 d)
  let g :=
    if i < 16 then i
    else if i < 32 then (5 * i + 1) % 16
    else if i < 48 then (3 * i + 5) % 16
    else (7 * i) % 16
  let k := md5K.getD i 0
  let s := md5S.getD i 0
  let tmp := w32 (a + f + k + m.getD g 0)
  (d, w32 (b + rotl32 tmp s), b, c)

/-- MD5 compression of one block into the running state. -/
def md5Compress (st : Nat × Nat × Nat × Nat) (block : List Nat) :
    Nat × Nat × Nat × Nat :=
  let m := md5Words block
  let (a, b, c, d) := (List.range 64).foldl (fun s i => md5Round i s m) st
  let (a0, b0, c0, d0) := st
  (w32 (a0 + a), w32 (b0 + b), w32 (c0 + c), w32 (d0 + d))

/-- Split the padded message into 64-byte blocks. -/
def md5Blocks : List Nat → List (List Nat)
  | [] => []
  | l =>
    if h : l.length ≤ 64 then [l]
    else l.take 64 :: md5Blocks (l.drop 64)
termination_by l => l.length
decreasing_by
  simp only [List.length_drop]
  omega

/-- One hex digit, lowercase as `hexdigest` produces. -/
def hexDigit (n : Nat) : Char :=
  if n < 10 then Char.ofNat (48 + n) else Char.ofNat (87 + n)

/-- Two-digit hex rendering of one byte. -/
def hexByte (n : Nat) : List Char := [hexDigit (n / 16 % 16), hexDigit (n % 16)]

/-- The little-endian byte serialisation of the final MD5 state. -/
def md5Digest (st : Nat × Nat × Nat × Nat) : List Nat :=
  let (a, b, c, d) := st
  [a, b, c, d].flatMap (fun x => (List.range 4).map (fun i => x / 2 ^ (8 * i) % 256))

/-- Python `hashlib.md5(s.encode()).hexdigest()` over the string model. -/
def md5Hex (s : List Char) : List Char :=
  let st := md5Blocks (md5Pad (utf8Encode s)) |>.foldl md5Compress
    (0x67452301, 0xefcdab89, 0x98badcfe, 0x10325476)
  (md5Digest st).flatMap hexByte

/-!
Data structures of `improved_processor.py` and the `ChunkConfig` constants.
-/

/-- Chunking parameters from `ChunkConfig` (default configuration). -/
def MIN_CHUNK_WORDS : Nat := 400

/-- Maximum target chunk size. -/
def MAX_CHUNK_WORDS : Nat := 800

/-- Overlap words carried across a split. -/
def OVERLAP_WORDS : Nat := 50

/-- Below this a section is merely flagged for merging. -/
def ABSOLUTE_MIN_WORDS : Nat := 150

/-- Above this a section must be split. -/
def ABSOLUTE_MAX_WORDS : Nat := 1200

/-- A parsed section with hierarchy information (dataclass `Section`). -/
structure Sect where
  section_number : List Char
  title : List Char
  content : List Char
  level : Nat
  parent_section : Option (List Char) := none
  children : List (List Char) := []
  source_file : List Char := []
  page_number : Option Nat := none
  effective_date : Option (List Char) := none
deriving Repr, DecidableEq

/-- The `word_count` property of `Section`. -/
def Sect.word_count (s : Sect) : Nat := countWords s.content

/-- The three `semantic_boundary` string values, as an enumeration. -/
inductive SemanticBoundary
  | section_end
  | paragraph_end
  | sentence_end
deriving Repr, DecidableEq

/-- A semantically complete chunk (dataclass `Chunk`). -/
structure Chunk where
  chunk_id : List Char
  content : List Char
  section_number : List Char
  section_title : List Char
  parent_chunk_id : Option (List Char)
  child_chunk_ids : List (List Char)
  position_in_section : Nat
  total_in_section : Nat
  source_document : List Char
  jurisdiction : List Char
  document_type : List Char
  effective_date : Option (List Char)
  category : List Char
  topic_tags : List (List Char)
  facility_types : List (List Char)
  word_count : Nat
  has_complete_lists : Bool
  semantic_boundary : SemanticBoundary
deriving Repr, DecidableEq

/-!
The `SemanticChunker`.
-/

/-- Worker of `_identify_list_blocks`: walks lines with the running index,
the `in_list` flag and the recorded `list_start`. -/
def identifyListBlocksAux : List (List Char) → Nat → Bool → Nat → List (Nat × Nat)
  | [], i, inList, listStart => if inList then [(listStart, i)] else []
  | line :: rest, i, inList, listStart =>
    let isItem := listPatternMatch line
    if isItem && !inList then
      identifyListBlocksAux rest (i + 1) true i
    else if !isItem && inList && hasNonSpace line then
      (listStart, i) :: identifyListBlocksAux rest (i + 1) false listStart
    else identifyListBlocksAux rest (i + 1) inList listStart

/-- `SemanticChunker._identify_list_blocks`: start and end line indices of
each list block of the content. -/
def identifyListBlocks (content : List Char) : List (Nat × Nat) :=
  identifyListBlocksAux (splitNL content) 0 false 0

/-- Membership of a line index in the `list_lines` set built by
`_split_into_units` from the block list. -/
def inAnyBlock (blocks : List (Nat × Nat)) (i : Nat) : Bool :=
  blocks.any (fun b => b.1 ≤ i && i < b.2)

/-- Worker of `_split_into_units`; units are kept as lists of lines and
joined afterwards. -/
def splitIntoUnitsAux (blocks : List (Nat × Nat)) :
    List (List Char) → Nat → List (List Char) → List (List (List Char))
  | [], _, cur => if cur.isEmpty then [] else [cur]
  | line :: rest, i, cur =>
    if inAnyBlock blocks i then
      splitIntoUnitsAux blocks rest (i + 1) (cur ++ [line])
    else if !hasNonSpace line then
      if cur.isEmpty then splitIntoUnitsAux blocks rest (i + 1) []
      else cur :: splitIntoUnitsAux blocks rest (i + 1) []
    else splitIntoUnitsAux blocks rest (i + 1) (cur ++ [line])

/-- `SemanticChunker._split_into_units`: atomic units (paragraphs and whole
list blocks), blank-separated, with whitespace-only units dropped. -/
def splitIntoUnits (content : List Char) (blocks : List (Nat × Nat)) :
    List (List Char) :=
  ((splitIntoUnitsAux blocks (splitNL content) 0 []).map (joinSep ['\n'])).filter
    hasNonSpace

/-- Sentence-ending punctuation, the look-behind class `[.!?]`. -/
def isSentEndPunct (c : Char) : Bool := c = '.' || c = '!' || c = '?'

/-- Dropping a prefix never lengthens a list. -/
theorem dropWhileLenLe (p : α → Bool) (l : List α) :
    (l.dropWhile p).length ≤ l.length := by
  induction l with
  | nil => simp [List.dropWhile]
  | cons c rest ih =>
    by_cases h : p c
    · simp only [List.dropWhile, h]
      exact ih.trans (Nat.le_succ _)
    · simp [List.dropWhile, h]

/-- Worker for `re.split` with pattern `(?<=[.!?])\s+`: the flag records
whether the previous character was sentence-ending punctuation. -/
def sentSplitAux : Bool → List Char → List (List Char)
  | _, [] => [[]]
  | afterPunct, c :: rest =>
    if afterPunct && isPySpace c then
      [] :: sentSplitAux false (rest.dropWhile isPySpace)
    else
      match sentSplitAux (isSentEndPunct c) rest with
      | l :: ls => (c :: l) :: ls
      | [] => [[c]]
termination_by _ l => l.length
decreasing_by
  · simp only [List.length_cons]
    have := dropWhileLenLe isPySpace rest
    omega
  · simp [Nat.lt_succ_self]

/-- The sentence split used by `_get_overlap_text`. -/
def sentSplit (s : List Char) : List (List Char) := sentSplitAux false s

/-- `SemanticChunker._get_overlap_text`. -/
def getOverlapText (chunks : List (List Char)) : List Char :=
  match chunks.getLast? with
  | none => []
  | some last_chunk =>
    let words := pyWords last_chunk
    if words.length ≤ OVERLAP_WORDS then last_chunk
    else
      let overlap_text := joinSep [' '] (words.drop (words.length - OVERLAP_WORDS))
      let sentences := sentSplit last_chunk
      if sentences.length > 1 then sentences.getLastD []
      else overlap_text

/-- The greedy accumulation loop of `_split_large_section`. Chunks are kept
as lists of their constituent pieces; `_split_large_section` joins each with
a blank line. -/
def splitLargeAux : List (List Char) → List (List Char) → Nat → List (List (List Char))
  | [], cur, _ => if cur.isEmpty then [] else [cur]
  | unit :: rest, cur, cwc =>
    let unit_words := countWords unit
    if cwc + unit_words > ABSOLUTE_MAX_WORDS && !cur.isEmpty then
      let overlap_text := getOverlapText cur
      let newCur := if overlap_text.isEmpty then [unit] else [overlap_text, unit]
      cur :: splitLargeAux rest newCur (countWords (joinSep [' '] newCur))
    else splitLargeAux rest (cur ++ [unit]) (cwc + unit_words)

/-- First maximal digit run of a string, modelling `re.search` with `(\d+)`. -/
def firstDigitRun : List Char → Option (List Char)
  | [] => none
  | c :: rest =>
    if isDigitC c then some ((c :: rest).takeWhile isDigitC)
    else firstDigitRun rest

/-- Decimal value of a digit run, modelling `int(...)`. -/
def digitsToNat (l : List Char) : Nat :=
  l.foldl (fun a c => a * 10 + (c.toNat - 48)) 0

/-- `SemanticChunker._infer_category`. -/
def inferCategory (section_number : List Char) (content : List Char) : List Char :=
  let fallback :=
    let cl := lowerStr content
    if ["staff", "employee", "personnel", "nurse"].any
        (fun w => containsSub w.data cl) then "staffing".data
    else if ["medication", "drug", "pharmacy"].any
        (fun w => containsSub w.data cl) then "medications".data
    else if ["resident", "care", "assessment"].any
        (fun w => containsSub w.data cl) then "resident_care".data
    else "general".data
  match firstDigitRun section_number with
  | none => fallback
  | some ds =>
    let num := digitsToNat ds
    if 100 ≤ num && num < 150 then "licensing".data
    else if 200 ≤ num && num < 250 then "administration".data
    else if 300 ≤ num && num < 400 then "physical_plant".data
    else if 400 ≤ num && num < 500 then "staffing".data
    else if 500 ≤ num && num < 600 then "resident_care".data
    else if 600 ≤ num && num < 700 then "medications".data
    else if 700 ≤ num && num < 800 then "food_service".data
    else if 800 ≤ num && num < 900 then "records".data
    else fallback

/-- The `topic_keywords` table of `_extract_topics`, in source order. -/
def topicKeywords : List (List Char × List (List Char)) :=
  [("staffing".data, ["staff".data, "employee".data, "personnel".data,
      "nurse".data, "administrator".data]),
   ("medications".data, ["medication".data, "drug".data, "pharmacy".data,
      "prescription".data]),
   ("safety".data, ["fire".data, "emergency".data, "safety".data,
      "evacuation".data]),
   ("nutrition".data, ["food".data, "meal".data, "diet".data,
      "nutrition".data]),
   ("rights".data, ["rights".data, "dignity".data, "privacy".data,
      "abuse".data]),
   ("documentation".data, ["record".data, "document".data, "report".data,
      "log".data]),
   ("infection_control".data, ["infection".data, "sanitation".data,
      "hygiene".data]),
   ("physical_plant".data, ["building".data, "room".data,
      "square feet".data, "bathroom".data])]

/-- `SemanticChunker._extract_topics`. -/
def extractTopics (content : List Char) : List (List Char) :=
  let cl := lowerStr content
  let topics :=
    (topicKeywords.filter (fun tk => tk.2.any (fun kw => containsSub kw cl))).map
      (fun tk => tk.1)
  if topics.isEmpty then ["general".data] else topics

/-- `SemanticChunker._extract_facility_types`. -/
def extractFacilityTypes (content : List Char) : List (List Char) :=
  let cl := lowerStr content
  let f1 :=
    if ["assisted living", "alf", "residential care"].any
        (fun w => containsSub w.data cl) then ["ALF".data] else []
  let f2 :=
    if ["skilled nursing", "snf", "nursing facility"].any
        (fun w => containsSub w.data cl) then ["SNF".data] else []
  let f3 :=
    if ["memory care", "dementia"].any
        (fun w => containsSub w.data cl) then ["Memory Care".data] else []
  let fs := f1 ++ f2 ++ f3
  if fs.isEmpty then ["All".data] else fs

/-- `SemanticChunker._generate_chunk_id`: an MD5-derived stable identifier
built from the source file, the section number and the position. -/
def generateChunkId (s : Sect) (position : Nat) : List Char :=
  let base := s.source_file ++ '_' :: s.section_number ++ '_' ::
    Nat.toDigits 10 position
  let hash_suffix := (md5Hex base).take 8
  "CHK_".data ++ s.section_number ++ '_' :: Nat.toDigits 10 position ++
    '_' :: hash_suffix

/-- The `valid_endings` tuple test of `_has_incomplete_list`: `endswith` on
a tuple of one-character strings is a test on the final character. -/
def endsWithValidPunct (l : List Char) : Bool :=
  match l.getLast? with
  | some c => c = '.' || c = ';' || c = ':' || c = '!' || c = '?' ||
      c = ')' || c = ']'
  | none => false

/-- Match of `\(\d{1,2}-\d{1,2}-\d{2,4}\)\s*$` anchored at the head of the
list (the tail of the line must be whitespace only). -/
def dpAt : List Char → Bool
  | '(' :: r1 =>
    let d1 := r1.takeWhile isDigitC
    let r2 := r1.dropWhile isDigitC
    (1 ≤ d1.length && d1.length ≤ 2) &&
      (match r2 with
       | '-' :: r3 =>
         let d2 := r3.takeWhile isDigitC
         let r4 := r3.dropWhile isDigitC
         (1 ≤ d2.length && d2.length ≤ 2) &&
           (match r4 with
            | '-' :: r5 =>
              let d3 := r5.takeWhile isDigitC
              let r6 := r5.dropWhile isDigitC
              (2 ≤ d3.length && d3.length ≤ 4) &&
                (match r6 with
                 | ')' :: tail => tail.all isPySpace
                 | _ => false)
            | _ => false)
       | _ => false)
  | _ => false

/-- Match of `\[eff\.[^\]]+\]\s*$` anchored at the head of the list. -/
def effAt : List Char → Bool
  | '[' :: 'e' :: 'f' :: 'f' :: '.' :: rest =>
    let body := rest.takeWhile (fun c => !(c = ']'))
    !body.isEmpty &&
      (match rest.dropWhile (fun c => !(c = ']')) with
       | ']' :: tail => tail.all isPySpace
       | _ => false)
  | _ => false

/-- Existence of a match at some position, modelling `re.search` for the
two end-anchored date patterns. -/
def anySuffix (p : List Char → Bool) : List Char → Bool
  | [] => p []
  | c :: rest => p (c :: rest) || anySuffix p rest

/-- The reversed scan of `_has_incomplete_list` for the last line whose
`strip()` is truthy, returning that line stripped. -/
def lastNonBlankStripped (lines : List (List Char)) : Option (List Char) :=
  match lines.reverse.find? hasNonSpace with
  | some line => some (pyStrip line)
  | none => none

/-- `SemanticChunker._has_incomplete_list`. -/
def hasIncompleteList (content : List Char) : Bool :=
  let lines := splitNL (pyStrip content)
  if lines.isEmpty then false
  else
    match lastNonBlankStripped lines with
    | none => false
    | some last_line =>
      if !listPatternMatch last_line then false
      else if endsWithValidPunct (pyRStrip last_line) then false
      else if anySuffix dpAt last_line then false
      else if anySuffix effAt last_line then false
      else true

/-- `SemanticChunker._create_chunk`. -/
def createChunk (s : Sect) (content : List Char) (position total : Nat) : Chunk :=
  { chunk_id := generateChunkId s position
    content := content
    section_number := s.section_number
    section_title := s.title
    parent_chunk_id := s.parent_section
    child_chunk_ids := s.children
    position_in_section := position
    total_in_section := total
    source_document := s.source_file
    jurisdiction := "Idaho".data
    document_type := "regulation".data
    effective_date := s.effective_date
    category := inferCategory s.section_number content
    topic_tags := extractTopics content
    facility_types := extractFacilityTypes content
    word_count := countWords content
    has_complete_lists := !hasIncompleteList content
    semantic_boundary :=
      if (pyRStrip content).getLast? = some '.' then .sentence_end
      else if position = total then .section_end
      else .paragraph_end }

/-- `SemanticChunker._split_large_section`. -/
def splitLargeSection (s : Sect) : List Chunk :=
  let content := s.content
  let list_blocks := identifyListBlocks content
  let units := splitIntoUnits content list_blocks
  let chunks := (splitLargeAux units [] 0).map (joinSep ['\n', '\n'])
  let total_chunks := chunks.length
  (List.range chunks.length).zip chunks |>.map
    (fun p => createChunk s p.2 (p.1 + 1) total_chunks)

/-- `SemanticChunker.chunk_section`. -/
def chunkSection (s : Sect) : List Chunk :=
  let word_count := s.word_count
  if MIN_CHUNK_WORDS ≤ word_count && word_count ≤ MAX_CHUNK_WORDS then
    [createChunk s s.content 1 1]
  else if word_count < ABSOLUTE_MIN_WORDS then
    [createChunk s s.content 1 1]
  else splitLargeSection s

/-!
Word-count bookkeeping lemmas: `len(s.split())` is additive across
whitespace separators, so the chunker's unit decomposition preserves the
total word count of a section.
-/

/-- Splitting at an interposed whitespace character splits the word list. -/
theorem pyWordsAuxSpaceSplit (sp : Char) (hsp : isPySpace sp = true) :
    ∀ (a b cur : List Char),
      pyWordsAux cur (a ++ sp :: b) = pyWordsAux cur a ++ pyWordsAux [] b := by
  intro a
  induction a with
  | nil =>
    intro b cur
    simp only [List.nil_append, pyWordsAux, hsp, if_true]
    by_cases hc : cur.isEmpty
    · simp [pyWordsAux, hc]
    · simp [pyWordsAux, hc]
  | cons c a' ih =>
    intro b cur
    simp only [List.cons_append, pyWordsAux]
    by_cases h : isPySpace c
    · by_cases hc : cur.isEmpty
      · simp [h, hc, ih]
      · simp [h, hc, ih]
    · simp [h, ih]

/-- Word-count additivity across one whitespace character. -/
theorem countWordsSpaceSplit (sp : Char) (hsp : isPySpace sp = true)
    (a b : List Char) : countWords (a ++ sp :: b) = countWords a + countWords b := by
  unfold countWords pyWords
  rw [pyWordsAuxSpaceSplit sp hsp a b []]
  simp

/-- Prepending whitespace-only text does not change the word count. -/
theorem countWordsDropSpacePrefix :
    ∀ (sep b : List Char), (∀ c ∈ sep, isPySpace c = true) →
      countWords (sep ++ b) = countWords b := by
  intro sep
  induction sep with
  | nil => intro b _; rfl
  | cons c rest ih =>
    intro b h
    have hc : isPySpace c = true := h c (by simp)
    have : (c :: rest) ++ b = [] ++ c :: (rest ++ b) := by simp
    rw [this, countWordsSpaceSplit c hc [] (rest ++ b)]
    have := ih b (fun x hx => h x (by simp [hx]))
    simpa [countWords, pyWords, pyWordsAux] using this

/-- Word-count additivity across a nonempty all-whitespace separator. -/
theorem countWordsSepSplit (sp : Char) (sep a b : List Char)
    (hsp : isPySpace sp = true) (hsep : ∀ c ∈ sep, isPySpace c = true) :
    countWords (a ++ (sp :: sep) ++ b) = countWords a + countWords b := by
  have h1 : a ++ (sp :: sep) ++ b = a ++ sp :: (sep ++ b) := by simp
  rw [h1, countWordsSpaceSplit sp hsp a (sep ++ b),
    countWordsDropSpacePrefix sep b hsep]

/-- Joining with an all-whitespace nonempty separator sums the word counts. -/
theorem countWordsJoinSep (sp : Char) (sep : List Char)
    (hsp : isPySpace sp = true) (hsep : ∀ c ∈ sep, isPySpace c = true) :
    ∀ l : List (List Char),
      countWords (joinSep (sp :: sep) l) = (l.map countWords).sum := by
  intro l
  induction l with
  | nil => rfl
  | cons x rest ih =>
    cases rest with
    | nil => simp [joinSep]
    | cons y rest' =>
      have hj : joinSep (sp :: sep) (x :: y :: rest') =
          x ++ (sp :: sep) ++ joinSep (sp :: sep) (y :: rest') := rfl
      rw [hj, countWordsSepSplit sp sep _ _ hsp hsep, ih]
      simp

/-- A string with no non-whitespace character has no words. -/
theorem countWordsOfAllSpace :
    ∀ s : List Char, hasNonSpace s = false → countWords s = 0 := by
  intro s
  induction s with
  | nil => intro _; rfl
  | cons c rest ih =>
    intro h
    simp only [hasNonSpace, List.any_cons, Bool.or_eq_false_iff] at h
    have hc : isPySpace c = true := by
      cases hx : isPySpace c
      · simp [hx] at h
      · rfl
    have hrest : hasNonSpace rest = false := by
      simpa [hasNonSpace] using h.2
    simpa [countWords, pyWords, pyWordsAux, hc] using ih hrest

/-- Dropping whitespace-only pieces preserves the summed word count. -/
theorem sumCountWordsFilter (l : List (List Char)) :
    ((l.filter hasNonSpace).map countWords).sum = (l.map countWords).sum := by
  induction l with
  | nil => rfl
  | cons x rest ih =>
    by_cases hx : hasNonSpace x
    · simp [List.filter, hx, ih]
    · have h0 : countWords x = 0 :=
        countWordsOfAllSpace x (by simpa using hx)
    
      simp [List.filter, hx, ih, h0]

/-- The worker of `_split_into_units` conserves the summed word count of all
lines: every line is either placed into a unit or is blank. -/
theorem splitIntoUnitsAuxSum (blocks : List (Nat × Nat)) :
    ∀ (rest : List (List Char)) (i : Nat) (cur : List (List Char)),
      ((splitIntoUnitsAux blocks rest i cur).map
          (fun u => (u.map countWords).sum)).sum =
        (cur.map countWords).sum + (rest.map countWords).sum := by
  intro rest
  induction rest with
  | nil =>
    intro i cur
    by_cases hc : cur.isEmpty
    · have : cur = [] := by simpa [List.isEmpty_iff] using hc
      simp [splitIntoUnitsAux, hc, this]
    · simp [splitIntoUnitsAux, hc]
  | cons line rest' ih =>
    intro i cur
    by_cases hb : inAnyBlock blocks i
    · have hstep : splitIntoUnitsAux blocks (line :: rest') i cur =
          splitIntoUnitsAux blocks rest' (i + 1) (cur ++ [line]) := by
        simp [splitIntoUnitsAux, hb]
      rw [hstep, ih]
      simp
      omega
    · by_cases hs : hasNonSpace line
      · have hstep : splitIntoUnitsAux blocks (line :: rest') i cur =
            splitIntoUnitsAux blocks rest' (i + 1) (cur ++ [line]) := by
          simp [splitIntoUnitsAux, hb, hs]
        rw [hstep, ih]
        simp
        omega
      · have h0 : countWords line = 0 :=
          countWordsOfAllSpace line (by simpa using hs)
        by_cases hc : cur.isEmpty
        · have hcur : cur = [] := by simpa [List.isEmpty_iff] using hc
          have hstep : splitIntoUnitsAux blocks (line :: rest') i cur =
              splitIntoUnitsAux blocks rest' (i + 1) [] := by
            simp [splitIntoUnitsAux, hb, hs, hc]
          rw [hstep, ih]
          simp [hcur, h0]
        · have hstep : splitIntoUnitsAux blocks (line :: rest') i cur =
              cur :: splitIntoUnitsAux blocks rest' (i + 1) [] := by
            simp [splitIntoUnitsAux, hb, hs, hc]
          rw [hstep]
          simp only [List.map_cons, List.sum_cons]
          rw [ih]
          simp [h0]


/-- The worker of `splitNL` never returns an empty list. -/
theorem splitNLAuxNe : ∀ (rest cur : List Char), splitNLAux cur rest ≠ [] := by
  intro rest
  induction rest with
  | nil => intro cur; simp [splitNLAux]
  | cons c rest' ih =>
    intro cur
    by_cases h : c = '\n'
    · simp [splitNLAux, h]
    · simp only [splitNLAux, h, if_false]
      exact ih (c :: cur)

/-- Unfolding of `joinSep` on a cons with a nonempty tail. -/
theorem joinSepConsNe (sep l : List Char) (r : List (List Char)) (h : r ≠ []) :
    joinSep sep (l :: r) = l ++ sep ++ joinSep sep r := by
  cases r with
  | nil => exact absurd rfl h
  | cons x xs => rfl

/-- Joining the pieces of `splitNL` with a newline restores the string. -/
theorem joinSplitNLAux :
    ∀ (rest cur : List Char),
      joinSep ['\n'] (splitNLAux cur rest) = cur.reverse ++ rest := by
  intro rest
  induction rest with
  | nil => intro cur; simp [splitNLAux, joinSep]
  | cons c rest' ih =>
    intro cur
    by_cases h : c = '\n'
    · subst h
      simp only [splitNLAux, if_true]
      rw [joinSepConsNe _ _ _ (splitNLAuxNe rest' [])]
      rw [ih []]
      simp
    · simp only [splitNLAux, h, if_false]
      rw [ih (c :: cur)]
      simp

/-- Python `content.split('\n')` joined with a newline is the identity. -/
theorem joinSplitNL (content : List Char) :
    joinSep ['\n'] (splitNL content) = content := by
  simpa using joinSplitNLAux content []

/-- The lines of a string carry exactly its words. -/
theorem countWordsSplitNL (content : List Char) :
    ((splitNL content).map countWords).sum = countWords content := by
  conv_rhs => rw [← joinSplitNL content]
  rw [countWordsJoinSep '\n' [] (by decide) (by simp)]

/-- The atomic units of `_split_into_units` carry exactly the words of the
section content: unit formation never loses or duplicates words. -/
theorem unitsSumEq (content : List Char) (blocks : List (Nat × Nat)) :
    ((splitIntoUnits content blocks).map countWords).sum = countWords content := by
  unfold splitIntoUnits
  rw [sumCountWordsFilter, List.map_map]
  have hmap :
      ((splitIntoUnitsAux blocks (splitNL content) 0 []).map
          (countWords ∘ joinSep ['\n'])) =
        ((splitIntoUnitsAux blocks (splitNL content) 0 []).map
          (fun u => (u.map countWords).sum)) := by
    apply List.map_congr_left
    intro u _
    exact countWordsJoinSep '\n' [] (by decide) (by simp) u
  rw [hmap, splitIntoUnitsAuxSum]
  simpa using countWordsSplitNL content

/-- The greedy accumulator always emits at least one chunk when its running
buffer is nonempty. -/
theorem splitLargeAuxNe :
    ∀ (units cur : List (List Char)) (cwc : Nat), cur ≠ [] →
      1 ≤ (splitLargeAux units cur cwc).length := by
  intro units
  induction units with
  | nil =>
    intro cur cwc hcur
    simp [splitLargeAux, List.isEmpty_iff, hcur]
  | cons u rest ih =>
    intro cur cwc hcur
    by_cases hcond :
        (cwc + countWords u > ABSOLUTE_MAX_WORDS && !cur.isEmpty) = true
    · simp only [splitLargeAux, hcond, if_true]
      simp
    · simp only [splitLargeAux, hcond, if_false]
      exact ih (cur ++ [u]) _ (by simp)

/-- When at least one unit remains and the total word budget is already
exceeded, the greedy accumulator emits at least two chunks. -/
theorem splitLargeAuxTwo :
    ∀ (units cur : List (List Char)) (cwc : Nat), cur ≠ [] → units ≠ [] →
      ABSOLUTE_MAX_WORDS < cwc + (units.map countWords).sum →
      2 ≤ (splitLargeAux units cur cwc).length := by
  intro units
  induction units with
  | nil => intro cur cwc _ habs _; exact absurd rfl habs
  | cons u rest ih =>
    intro cur cwc hcur _ hsum
    by_cases hcond :
        (cwc + countWords u > ABSOLUTE_MAX_WORDS && !cur.isEmpty) = true
    · simp only [splitLargeAux, hcond, if_true, List.length_cons]
      apply Nat.succ_le_succ
      apply splitLargeAuxNe
      split <;> simp
    · simp only [splitLargeAux, hcond, if_false]
      cases rest with
      | nil =>
        exfalso
        apply hcond
        rw [Bool.and_eq_true]
        constructor
        · simp only [List.map_cons, List.map_nil, List.sum_cons,
            List.sum_nil] at hsum
          simp only [gt_iff_lt, decide_eq_true_eq]
          omega
        · simpa [List.isEmpty_iff] using hcur
      | cons v vs =>
        apply ih (cur ++ [u]) (cwc + countWords u) (by simp) (by simp)
        simp only [List.map_cons, List.sum_cons] at hsum ⊢
        omega

/-- The number of chunks produced by `_split_large_section` is the number of
chunk texts produced by its greedy loop. -/
theorem splitLargeSectionLen (s : Sect) :
    (splitLargeSection s).length =
      (splitLargeAux
        (splitIntoUnits s.content (identifyListBlocks s.content)) [] 0).length := by
  unfold splitLargeSection
  simp

set_option maxRecDepth 200000

/-- Claim C3 (amended): a section of exactly 400 words is emitted as a
single chunk; a section of 1,201 words is split into at least 2 chunks
whenever its content comprises at least two atomic units, while a
1,201-word section forming a single atomic unit is emitted as one chunk
(see the counterexample). -/
theorem c3_size_band_amended (s : Sect) :
    (countWords s.content = 400 → (chunkSection s).length = 1) ∧
    (countWords s.content = 1201 →
      2 ≤ (splitIntoUnits s.content (identifyListBlocks s.content)).length →
      2 ≤ (chunkSection s).length) := by
  constructor
  · intro h
    simp [chunkSection, Sect.word_count, h, MIN_CHUNK_WORDS, MAX_CHUNK_WORDS]
  · intro h hunits
    have hsum :
        ((splitIntoUnits s.content (identifyListBlocks s.content)).map
            countWords).sum = 1201 := by
      rw [unitsSumEq]; exact h
    have hcs : chunkSection s = splitLargeSection s := by
      simp [chunkSection, Sect.word_count, h, MIN_CHUNK_WORDS,
        MAX_CHUNK_WORDS, ABSOLUTE_MIN_WORDS]
    rw [hcs, splitLargeSectionLen]
    cases hu : splitIntoUnits s.content (identifyListBlocks s.content) with
    | nil => rw [hu] at hunits; simp at hunits
    | cons u us =>
      cases us with
      | nil => rw [hu] at hunits; simp at hunits
      | cons v vs =>
        have hstep : splitLargeAux (u :: v :: vs) [] 0 =
            splitLargeAux (v :: vs) ([] ++ [u]) (0 + countWords u) := by
          simp [splitLargeAux]
        rw [hstep]
        apply splitLargeAuxTwo (v :: vs) ([] ++ [u]) (0 + countWords u)
          (by simp) (by simp)
        rw [hu] at hsum
        simp only [List.map_cons, List.sum_cons] at hsum ⊢
        unfold ABSOLUTE_MAX_WORDS
        omega

/-- A 1,201-word single-paragraph section used as the C3 counterexample. -/
def c3Content : List Char := joinSep [' '] (List.replicate 1201 ['z'])

/-- The C3 counterexample section. -/
def c3Sect : Sect :=
  { section_number := "100".data, title := "T".data, content := c3Content,
    level := 1, source_file := "f.txt".data }

/-- Claim C3 counterexample: a 1,201-word section consisting of one atomic
unit is emitted as a single chunk, so `chunk_section` does not always return
at least 2 chunks one word above the absolute maximum. -/
theorem c3_size_band_counterexample :
    countWords c3Sect.content = 1201 ∧ (chunkSection c3Sect).length = 1 := by
  constructor
  · rfl
  · rfl

/-- A 400-word section for the C3 witness. -/
def c3aSect : Sect :=
  { section_number := "100".data, title := "T".data,
    content := joinSep [' '] (List.replicate 400 ['z']),
    level := 1, source_file := "f.txt".data }

/-- A 1,201-word two-paragraph section for the C3 witness. -/
def c3bSect : Sect :=
  { section_number := "100".data, title := "T".data,
    content := joinSep [' '] (List.replicate 600 ['z']) ++
      '\n' :: '\n' :: joinSep [' '] (List.replicate 601 ['z']),
    level := 1, source_file := "f.txt".data }

/-- Witness for C3: the amended theorem applied to a concrete 400-word
section and to a concrete two-unit 1,201-word section. -/
theorem c3_size_band_witness :
    (chunkSection c3aSect).length = 1 ∧ 2 ≤ (chunkSection c3bSect).length :=
  ⟨(c3_size_band_amended c3aSect).1 (by rfl),
   (c3_size_band_amended c3bSect).2 (by rfl) (by decide)⟩

/-- Claim C8 (amended): a section whose word count lies within the 400-800
target band is emitted as a single chunk, whose semantic_boundary is
sentence_end when the content ends with a period after right-stripping, and
section_end otherwise. -/
theorem c8_single_chunk_boundary (s : Sect)
    (h1 : MIN_CHUNK_WORDS ≤ countWords s.content)
    (h2 : countWords s.content ≤ MAX_CHUNK_WORDS) :
    chunkSection s = [createChunk s s.content 1 1] ∧
    (chunkSection s).map (fun c => c.semantic_boundary) =
      [if (pyRStrip s.content).getLast? = some '.' then
        SemanticBoundary.sentence_end
       else SemanticBoundary.section_end] := by
  have hcs : chunkSection s = [createChunk s s.content 1 1] := by
    simp [chunkSection, Sect.word_count, h1, h2]
  refine ⟨hcs, ?_⟩
  rw [hcs]
  by_cases hdot : (pyRStrip s.content).getLast? = some '.'
  · simp [createChunk, hdot]
  · simp [createChunk, hdot]

/-- A 400-word section whose content ends with a period, for the C8
counterexample. -/
def c8Sect : Sect :=
  { section_number := "100".data, title := "T".data,
    content := joinSep [' '] (List.replicate 399 ['z'] ++ [['z', '.']]),
    level := 1, source_file := "f.txt".data }

/-- Claim C8 counterexample: an in-band section ending with a period is
emitted as a single chunk whose semantic_boundary is sentence_end, not
section_end. -/
theorem c8_counterexample :
    countWords c8Sect.content = 400 ∧
    (chunkSection c8Sect).map (fun c => c.semantic_boundary) =
      [SemanticBoundary.sentence_end] := by
  constructor
  · rfl
  · rfl

/-- A 400-word section whose content does not end with a period, for the C8
witness. -/
def c8wSect : Sect :=
  { section_number := "200".data, title := "T".data,
    content := joinSep [' '] (List.replicate 400 ['q']),
    level := 1, source_file := "f.txt".data }

/-- Witness for C8: the amended theorem applied to a concrete in-band
section. -/
theorem c8_single_chunk_boundary_witness :
    chunkSection c8wSect = [createChunk c8wSect c8wSect.content 1 1] ∧
    (chunkSection c8wSect).map (fun c => c.semantic_boundary) =
      [if (pyRStrip c8wSect.content).getLast? = some '.' then
        SemanticBoundary.sentence_end
       else SemanticBoundary.section_end] :=
  c8_single_chunk_boundary c8wSect (by decide) (by decide)

/-- Claim C4: the chunk id is a deterministic function of the source
document, the section number and the position alone: two sections agreeing
on `source_file` and `section_number` receive the same id at the same
position, whatever their content, title, level, hierarchy links or dates.
Determinism across runs is inherent: `generateChunkId` is a pure function. -/
theorem c4_chunk_id_deterministic (s1 s2 : Sect) (position : Nat)
    (hsrc : s1.source_file = s2.source_file)
    (hnum : s1.section_number = s2.section_number) :
    generateChunkId s1 position = generateChunkId s2 position := by
  unfold generateChunkId
  rw [hsrc, hnum]

/-- First section for the C4 witness. -/
def c4aSect : Sect :=
  { section_number := "100".data, title := "A".data,
    content := "alpha body text".data, level := 1,
    source_file := "doc.txt".data }

/-- Second section for the C4 witness: same source file and section number,
different content, title, level, parent and effective date. -/
def c4bSect : Sect :=
  { section_number := "100".data, title := "B".data,
    content := "completely different body".data, level := 2,
    parent_section := some "099".data, children := ["101".data],
    source_file := "doc.txt".data, page_number := some 7,
    effective_date := some "2024-01-01".data }

/-- Witness for C4 at position 3. -/
theorem c4_chunk_id_deterministic_witness :
    generateChunkId c4aSect 3 = generateChunkId c4bSect 3 :=
  c4_chunk_id_deterministic c4aSect c4bSect 3 rfl rfl

/-!
Lemmas for claim C2: stripping the chunk content does not change the
identity of its last non-blank line (up to stripping), so
`_has_incomplete_list` can be compared with the specification's phrasing,
which speaks directly of the chunk's last non-blank line.
-/

/-- The selector applied by `_has_incomplete_list` to the line list. -/
def lnbOf (c : List Char) : Option (List Char) :=
  ((splitNL c).reverse.find? hasNonSpace).map pyStrip

/-- The match in `lastNonBlankStripped` is the composed selector. -/
theorem lastNonBlankStrippedEq (lines : List (List Char)) :
    lastNonBlankStripped lines = (lines.reverse.find? hasNonSpace).map pyStrip := by
  unfold lastNonBlankStripped
  cases lines.reverse.find? hasNonSpace <;> rfl

/-- Dropping twice drops once. -/
theorem dropWhileIdem (p : α → Bool) :
    ∀ l : List α, (l.dropWhile p).dropWhile p = l.dropWhile p := by
  intro l
  induction l with
  | nil => rfl
  | cons c rest ih =>
    by_cases h : p c
    · simp [List.dropWhile, h, ih]
    · simp [List.dropWhile, h]

/-- Right-stripping an already stripped string does nothing. -/
theorem pyRStripPyStrip (l : List Char) : pyRStrip (pyStrip l) = pyStrip l := by
  unfold pyStrip pyRStrip
  rw [List.reverse_reverse, dropWhileIdem]

/-- When the selector produces a line, that line carries no trailing
whitespace. -/
theorem lnbStripped (c : List Char) (l : List Char) (h : lnbOf c = some l) :
    pyRStrip l = l := by
  unfold lnbOf at h
  cases hf : (splitNL c).reverse.find? hasNonSpace with
  | none => rw [hf] at h; simp at h
  | some x =>
    rw [hf] at h
    simp only [Option.map] at h
    rw [Option.some.injEq] at h
    rw [← h]
    exact pyRStripPyStrip x

/-- Appending a whitespace character does not change blankness. -/
theorem hasNonSpaceSnocSpace (l : List Char) (ch : Char)
    (h : isPySpace ch = true) : hasNonSpace (l ++ [ch]) = hasNonSpace l := by
  simp [hasNonSpace, h]

/-- Prepending a whitespace character does not change blankness. -/
theorem hasNonSpaceConsSpace (l : List Char) (ch : Char)
    (h : isPySpace ch = true) : hasNonSpace (ch :: l) = hasNonSpace l := by
  simp [hasNonSpace, h]

/-- Appending a whitespace character does not change the stripped string. -/
theorem pyStripSnocSpace (l : List Char) (ch : Char)
    (h : isPySpace ch = true) : pyStrip (l ++ [ch]) = pyStrip l := by
  unfold pyStrip pyLStrip pyRStrip
  by_cases hall : l.dropWhile isPySpace = []
  · have h2 : (l ++ [ch]).dropWhile isPySpace = [ch].dropWhile isPySpace := by
      rw [List.dropWhile_append]
      simp [hall]
    rw [h2, hall]
    simp [List.dropWhile, h]
  · have h2 : (l ++ [ch]).dropWhile isPySpace = l.dropWhile isPySpace ++ [ch] := by
      rw [List.dropWhile_append]
      simp [hall]
    rw [h2]
    simp [List.dropWhile, h]

/-- Prepending a whitespace character does not change the stripped string. -/
theorem pyStripConsSpace (l : List Char) (ch : Char)
    (h : isPySpace ch = true) : pyStrip (ch :: l) = pyStrip l := by
  unfold pyStrip pyLStrip
  simp [List.dropWhile, h]

/-- Replacing the final candidate with one of equal blankness and equal
stripped text does not change the selected stripped line. -/
theorem findMapLast (r : List (List Char)) (a b : List Char)
    (hns : hasNonSpace a = hasNonSpace b) (hst : pyStrip a = pyStrip b) :
    ((r ++ [a]).find? hasNonSpace).map pyStrip =
      ((r ++ [b]).find? hasNonSpace).map pyStrip := by
  induction r with
  | nil =>
    simp only [List.nil_append]
    by_cases ha : hasNonSpace a
    · have hb : hasNonSpace b = true := by rw [← hns]; exact ha
      rw [List.find?_cons_of_pos _ ha, List.find?_cons_of_pos _ hb]
      simp [hst]
    · have hb : hasNonSpace b = false := by rw [← hns]; simpa using ha
      rw [List.find?_cons_of_neg _ (by simpa using ha),
        List.find?_cons_of_neg _ (by simp [hb])]
  | cons x r' ih =>
    by_cases hx : hasNonSpace x
    · simp only [List.cons_append]
      rw [List.find?_cons_of_pos _ hx, List.find?_cons_of_pos _ hx]
    · simp only [List.cons_append]
      rw [List.find?_cons_of_neg _ (by simpa using hx),
        List.find?_cons_of_neg _ (by simpa using hx)]
      exact ih

/-- A non-matching final candidate never changes the search result. -/
theorem findAppendBlank (r : List (List Char)) (b : List Char)
    (hb : hasNonSpace b = false) :
    (r ++ [b]).find? hasNonSpace = r.find? hasNonSpace := by
  induction r with
  | nil =>
    simp only [List.nil_append]
    rw [List.find?_cons_of_neg _ (by simp [hb])]
  | cons x r' ih =>
    by_cases hx : hasNonSpace x
    · simp only [List.cons_append]
      rw [List.find?_cons_of_pos _ hx, List.find?_cons_of_pos _ hx]
    · simp only [List.cons_append]
      rw [List.find?_cons_of_neg _ (by simpa using hx),
        List.find?_cons_of_neg _ (by simpa using hx)]
      exact ih

/-- Appending a newline appends one empty piece to the split. -/
theorem splitNLAuxSnocNL :
    ∀ (x cur : List Char),
      splitNLAux cur (x ++ ['\n']) = splitNLAux cur x ++ [[]] := by
  intro x
  induction x with
  | nil => intro cur; simp [splitNLAux]
  | cons c x' ih =>
    intro cur
    by_cases h : c = '\n'
    · simp only [List.cons_append, splitNLAux, h, if_true, List.append_eq]
      rw [ih []]
    · simp only [List.cons_append, splitNLAux, h, if_false, List.append_eq]
      rw [ih (c :: cur)]

/-- Appending a non-newline character extends the final piece. -/
theorem splitNLAuxSnocOther :
    ∀ (x cur : List Char) (ch : Char), ch ≠ '\n' →
      ∃ (ls : List (List Char)) (last : List Char),
        splitNLAux cur x = ls ++ [last] ∧
        splitNLAux cur (x ++ [ch]) = ls ++ [last ++ [ch]] := by
  intro x
  induction x with
  | nil =>
    intro cur ch hch
    refine ⟨[], cur.reverse, by simp [splitNLAux], ?_⟩
    simp [splitNLAux, hch]
  | cons c x' ih =>
    intro cur ch hch
    by_cases h : c = '\n'
    · obtain ⟨ls, last, h1, h2⟩ := ih [] ch hch
      refine ⟨cur.reverse :: ls, last, ?_, ?_⟩
      · simp only [splitNLAux, h, if_true, h1, List.cons_append]
      · simp only [List.cons_append, splitNLAux, h, if_true, List.append_eq, h2]
    · obtain ⟨ls, last, h1, h2⟩ := ih (c :: cur) ch hch
      refine ⟨ls, last, ?_, ?_⟩
      · simp only [splitNLAux, h, if_false, h1]
      · simp only [List.cons_append, splitNLAux, h, if_false, List.append_eq, h2]

/-- The worker result is the plain split with the accumulator reversed onto
the first piece. -/
theorem splitNLAuxHead :
    ∀ (x cur : List Char),
      splitNLAux cur x =
        (cur.reverse ++ (splitNL x).headD []) :: (splitNL x).tail := by
  intro x
  induction x with
  | nil => intro cur; simp [splitNLAux, splitNL]
  | cons c x' ih =>
    intro cur
    by_cases h : c = '\n'
    · simp only [splitNLAux, splitNL, h, if_true]
      simp [splitNLAux]
    · simp only [splitNLAux, splitNL, h, if_false]
      rw [ih (c :: cur), ih [c]]
      simp

/-- The last-non-blank selector ignores a trailing whitespace character. -/
theorem lnbSnocSpace (x : List Char) (ch : Char) (h : isPySpace ch = true) :
    lnbOf (x ++ [ch]) = lnbOf x := by
  unfold lnbOf
  by_cases hnl : ch = '\n'
  · subst hnl
    have hs : splitNL (x ++ ['\n']) = splitNL x ++ [[]] :=
      splitNLAuxSnocNL x []
    rw [hs, List.reverse_append]
    simp only [List.reverse_cons, List.reverse_nil, List.nil_append,
      List.singleton_append]
    rw [List.find?_cons_of_neg _ (by simp [hasNonSpace])]
  · obtain ⟨ls, last, h1, h2⟩ := splitNLAuxSnocOther x [] ch hnl
    have hx : splitNL x = ls ++ [last] := h1
    have hx2 : splitNL (x ++ [ch]) = ls ++ [last ++ [ch]] := h2
    rw [hx, hx2, List.reverse_append, List.reverse_append]
    simp only [List.reverse_cons, List.reverse_nil, List.nil_append,
      List.singleton_append]
    by_cases hlast : hasNonSpace last
    · rw [List.find?_cons_of_pos _
          (by rw [hasNonSpaceSnocSpace _ _ h]; exact hlast),
        List.find?_cons_of_pos _ hlast]
      simp [pyStripSnocSpace _ _ h]
    · rw [List.find?_cons_of_neg _
          (by rw [hasNonSpaceSnocSpace _ _ h]; simpa using hlast),
        List.find?_cons_of_neg _ (by simpa using hlast)]

/-- The last-non-blank selector ignores a leading whitespace character. -/
theorem lnbConsSpace (x : List Char) (ch : Char) (h : isPySpace ch = true) :
    lnbOf (ch :: x) = lnbOf x := by
  unfold lnbOf
  by_cases hnl : ch = '\n'
  · subst hnl
    have hs : splitNL ('\n' :: x) = [] :: splitNL x := by
      simp [splitNL, splitNLAux]
    rw [hs, List.reverse_cons]
    rw [findAppendBlank _ _ (by simp [hasNonSpace])]
  · have hs : splitNL (ch :: x) =
        (ch :: (splitNL x).headD []) :: (splitNL x).tail := by
      show splitNLAux [] (ch :: x) = _
      simp only [splitNLAux, hnl, if_false]
      rw [splitNLAuxHead x [ch]]
      simp
    have hx : splitNL x = (splitNL x).headD [] :: (splitNL x).tail := by
      cases hxx : splitNL x with
      | nil => exact absurd hxx (splitNLAuxNe x [])
      | cons a t => simp
    rw [hs]
    conv_rhs => rw [hx]
    rw [List.reverse_cons, List.reverse_cons]
    exact findMapLast _ _ _ (hasNonSpaceConsSpace _ _ h)
      (pyStripConsSpace _ _ h)

/-- The selector ignores any whitespace suffix. -/
theorem lnbAppendSpaces :
    ∀ (w x : List Char), (∀ c ∈ w, isPySpace c = true) →
      lnbOf (x ++ w) = lnbOf x := by
  intro w
  induction w with
  | nil => intro x _; simp
  | cons c w' ih =>
    intro x hw
    have h1 : x ++ c :: w' = (x ++ [c]) ++ w' := by simp
    rw [h1, ih (x ++ [c]) (fun d hd => hw d (by simp [hd])),
      lnbSnocSpace x c (hw c (by simp))]

/-- The selector ignores any whitespace prefix. -/
theorem lnbPrependSpaces :
    ∀ (w x : List Char), (∀ c ∈ w, isPySpace c = true) →
      lnbOf (w ++ x) = lnbOf x := by
  intro w
  induction w with
  | nil => intro x _; simp
  | cons c w' ih =>
    intro x hw
    rw [List.cons_append, lnbConsSpace _ c (hw c (by simp))]
    exact ih x (fun d hd => hw d (by simp [hd]))

/-- Stripping the content does not change its last non-blank line. -/
theorem lnbPyStrip (c : List Char) : lnbOf (pyStrip c) = lnbOf c := by
  have hL : lnbOf c = lnbOf (pyLStrip c) := by
    conv_lhs => rw [← List.takeWhile_append_dropWhile (p := isPySpace) (l := c)]
    exact lnbPrependSpaces _ _ (fun ch hch => List.mem_takeWhile_imp hch)
  have h2 : pyLStrip c =
      pyStrip c ++ ((pyLStrip c).reverse.takeWhile isPySpace).reverse := by
    conv_lhs => rw [← List.reverse_reverse (pyLStrip c)]
    conv_lhs =>
      rw [← List.takeWhile_append_dropWhile (p := isPySpace)
        (l := (pyLStrip c).reverse)]
    rw [List.reverse_append]
    rfl
  have hR : lnbOf (pyLStrip c) = lnbOf (pyStrip c) := by
    conv_lhs => rw [h2]
    exact lnbAppendSpaces _ _
      (fun ch hch => List.mem_takeWhile_imp (List.mem_reverse.mp hch))
  rw [hL, hR]

/-- Specification-side predicate of claim C2: the chunk's last non-blank
line matches the list-item pattern and does not end in terminal
punctuation, a closing bracket or parenthesis, or a recognized
effective-date suffix. -/
def unterminatedListTail (content : List Char) : Bool :=
  match lnbOf content with
  | none => false
  | some l =>
    listPatternMatch l &&
      !(endsWithValidPunct l || anySuffix dpAt l || anySuffix effAt l)

/-- The code's `_has_incomplete_list` computes exactly the specification
predicate. -/
theorem hasIncompleteListEq (content : List Char) :
    hasIncompleteList content = unterminatedListTail content := by
  have hne : (splitNL (pyStrip content)).isEmpty = false := by
    cases hxx : splitNL (pyStrip content) with
    | nil => exact absurd hxx (splitNLAuxNe _ [])
    | cons a t => rfl
  unfold hasIncompleteList unterminatedListTail
  simp only [hne, Bool.false_eq_true, if_false, lastNonBlankStrippedEq]
  have hsel : ((splitNL (pyStrip content)).reverse.find? hasNonSpace).map
      pyStrip = lnbOf content := lnbPyStrip content
  rw [hsel]
  cases hl : lnbOf content with
  | none => simp
  | some l =>
    have hstrip : pyRStrip l = l := lnbStripped content l hl
    by_cases h1 : listPatternMatch l
    · by_cases h2 : endsWithValidPunct l
      · simp [h1, h2, hstrip]
      · by_cases h3 : anySuffix dpAt l
        · simp [h1, h2, h3, hstrip]
        · by_cases h4 : anySuffix effAt l
          · simp [h1, h2, h3, h4, hstrip]
          · simp [h1, h2, h3, h4, hstrip]
    · simp [h1]

/-- Claim C2: a chunk's has_complete_lists flag is false exactly when the
chunk's last non-blank line matches a list-item pattern and does not end in
terminal punctuation, a closing bracket or parenthesis, or a recognized
effective-date suffix. -/
theorem c2_has_complete_lists_iff (s : Sect) (content : List Char)
    (position total : Nat) :
    (createChunk s content position total).has_complete_lists = false ↔
      unterminatedListTail content = true := by
  have hfield : (createChunk s content position total).has_complete_lists =
      !hasIncompleteList content := rfl
  rw [hfield, hasIncompleteListEq]
  cases unterminatedListTail content <;> simp

/-!
Lemmas for claim C1: every list block identified by
`_identify_list_blocks` is a well-formed line range starting at a list-item
line, the lines of that range are accumulated into one unit by
`_split_into_units`, and every unit is placed whole into one chunk by the
greedy loop of `_split_large_section`.
-/

/-- Every block emitted over the suffix of `full` beginning at index `i`
is a nonempty in-range line interval whose first line matches the
list-item pattern. -/
theorem identifyBlocksValid (full : List (List Char)) :
    ∀ (rest : List (List Char)) (i : Nat) (inList : Bool) (start : Nat),
      full.drop i = rest → i ≤ full.length →
      (inList = true → start < i ∧
        listPatternMatch (full.getD start []) = true) →
      ∀ b ∈ identifyListBlocksAux rest i inList start,
        b.1 < b.2 ∧ b.2 ≤ full.length ∧
        listPatternMatch (full.getD b.1 []) = true := by
  intro rest
  induction rest with
  | nil =>
    intro i inList start hdrop hi hpre b hb
    cases inList with
    | false => simp [identifyListBlocksAux] at hb
    | true =>
      simp only [identifyListBlocksAux, if_true, List.mem_singleton] at hb
      obtain ⟨h1, h2⟩ := hpre rfl
      subst hb
      exact ⟨h1, hi, h2⟩
  | cons line rest' ih =>
    intro i inList start hdrop hi hpre b hb
    have hlen : i < full.length := by
      by_contra hcon
      have hnil : full.drop i = [] := List.drop_eq_nil_of_le (by omega)
      rw [hnil] at hdrop
      exact absurd hdrop (by simp)
    have hline : full.getD i [] = line := by
      have h1 := List.head?_drop full i
      rw [hdrop] at h1
      rw [List.getD_eq_getElem?_getD, ← h1]
      rfl
    have hdrop' : full.drop (i + 1) = rest' := by
      have h1 := List.tail_drop full i
      rw [hdrop] at h1
      simpa using h1.symm
    by_cases hitem : listPatternMatch line
    · cases inList with
      | false =>
        have hstep : identifyListBlocksAux (line :: rest') i false start =
            identifyListBlocksAux rest' (i + 1) true i := by
          simp [identifyListBlocksAux, hitem]
        rw [hstep] at hb
        exact ih (i + 1) true i hdrop' (by omega)
          (fun _ => ⟨by omega, by rw [hline]; exact hitem⟩) b hb
      | true =>
        have hstep : identifyListBlocksAux (line :: rest') i true start =
            identifyListBlocksAux rest' (i + 1) true start := by
          simp [identifyListBlocksAux, hitem]
        rw [hstep] at hb
        apply ih (i + 1) true start hdrop' (by omega) _ b hb
        intro _
        obtain ⟨h1, h2⟩ := hpre rfl
        exact ⟨by omega, h2⟩
    · cases inList with
      | true =>
        by_cases hnb : hasNonSpace line
        · have hstep : identifyListBlocksAux (line :: rest') i true start =
              (start, i) :: identifyListBlocksAux rest' (i + 1) false start := by
            simp [identifyListBlocksAux, hitem, hnb]
          rw [hstep] at hb
          rcases List.mem_cons.mp hb with hb1 | hb2
          · obtain ⟨h1, h2⟩ := hpre rfl
            subst hb1
            exact ⟨h1, by omega, h2⟩
          · exact ih (i + 1) false start hdrop' (by omega) (by simp) b hb2
        · have hstep : identifyListBlocksAux (line :: rest') i true start =
              identifyListBlocksAux rest' (i + 1) true start := by
            simp [identifyListBlocksAux, hitem, hnb]
          rw [hstep] at hb
          apply ih (i + 1) true start hdrop' (by omega) _ b hb
          intro _
          obtain ⟨h1, h2⟩ := hpre rfl
          exact ⟨by omega, h2⟩
      | false =>
        have hstep : identifyListBlocksAux (line :: rest') i false start =
            identifyListBlocksAux rest' (i + 1) false start := by
          simp [identifyListBlocksAux, hitem]
        rw [hstep] at hb
        exact ih (i + 1) false start hdrop' (by omega) (by simp) b hb

/-- Validity of the blocks of `_identify_list_blocks` over a content
string. -/
theorem identifyListBlocksValid (content : List Char) :
    ∀ b ∈ identifyListBlocks content,
      b.1 < b.2 ∧ b.2 ≤ (splitNL content).length ∧
      listPatternMatch ((splitNL content).getD b.1 []) = true :=
  fun b hb =>
    identifyBlocksValid (splitNL content) (splitNL content) 0 false 0
      (by simp) (by simp) (by simp) b hb

/-- A line index inside a recorded block is a member of the block line
set. -/
theorem inAnyBlockOfMem (blocks : List (Nat × Nat)) (b : Nat × Nat)
    (hb : b ∈ blocks) (k : Nat) (h1 : b.1 ≤ k) (h2 : k < b.2) :
    inAnyBlock blocks k = true := by
  unfold inAnyBlock
  rw [List.any_eq_true]
  refine ⟨b, hb, ?_⟩
  simp [h1, h2]

/-- Processing a line prefix only prepends finished units and rewrites the
accumulator: the unit splitter can be advanced past any prefix. -/
theorem splitUnitsAdvance (blocks : List (Nat × Nat)) :
    ∀ (A rest : List (List Char)) (i : Nat) (cur : List (List Char)),
      ∃ (E : List (List (List Char))) (cur2 : List (List Char)),
        splitIntoUnitsAux blocks (A ++ rest) i cur =
          E ++ splitIntoUnitsAux blocks rest (i + A.length) cur2 := by
  intro A
  induction A with
  | nil => intro rest i cur; exact ⟨[], cur, by simp⟩
  | cons line A' ih =>
    intro rest i cur
    by_cases hb : inAnyBlock blocks i
    · obtain ⟨E, cur2, hE⟩ := ih rest (i + 1) (cur ++ [line])
      refine ⟨E, cur2, ?_⟩
      have hstep : splitIntoUnitsAux blocks ((line :: A') ++ rest) i cur =
          splitIntoUnitsAux blocks (A' ++ rest) (i + 1) (cur ++ [line]) := by
        simp [splitIntoUnitsAux, hb]
      rw [hstep, hE]
      have : i + 1 + A'.length = i + (line :: A').length := by
        simp; omega
      rw [this]
    · by_cases hs : hasNonSpace line
      · obtain ⟨E, cur2, hE⟩ := ih rest (i + 1) (cur ++ [line])
        refine ⟨E, cur2, ?_⟩
        have hstep : splitIntoUnitsAux blocks ((line :: A') ++ rest) i cur =
            splitIntoUnitsAux blocks (A' ++ rest) (i + 1) (cur ++ [line]) := by
          simp [splitIntoUnitsAux, hb, hs]
        rw [hstep, hE]
        have : i + 1 + A'.length = i + (line :: A').length := by
          simp; omega
        rw [this]
      · by_cases hc : cur.isEmpty
        · obtain ⟨E, cur2, hE⟩ := ih rest (i + 1) []
          refine ⟨E, cur2, ?_⟩
          have hstep : splitIntoUnitsAux blocks ((line :: A') ++ rest) i cur =
              splitIntoUnitsAux blocks (A' ++ rest) (i + 1) [] := by
            simp [splitIntoUnitsAux, hb, hs, hc]
          rw [hstep, hE]
          have : i + 1 + A'.length = i + (line :: A').length := by
            simp; omega
          rw [this]
        · obtain ⟨E, cur2, hE⟩ := ih rest (i + 1) []
          refine ⟨cur :: E, cur2, ?_⟩
          have hstep : splitIntoUnitsAux blocks ((line :: A') ++ rest) i cur =
              cur :: splitIntoUnitsAux blocks (A' ++ rest) (i + 1) [] := by
            simp [splitIntoUnitsAux, hb, hs, hc]
          rw [hstep, hE]
          have : i + 1 + A'.length = i + (line :: A').length := by
            simp; omega
          rw [this]
          rfl

/-- While every processed index lies in a block, the unit splitter only
appends the lines to its accumulator. -/
theorem splitUnitsRun (blocks : List (Nat × Nat)) :
    ∀ (seg rest : List (List Char)) (i : Nat) (cur : List (List Char)),
      (∀ j, j < seg.length → inAnyBlock blocks (i + j) = true) →
      splitIntoUnitsAux blocks (seg ++ rest) i cur =
        splitIntoUnitsAux blocks rest (i + seg.length) (cur ++ seg) := by
  intro seg
  induction seg with
  | nil => intro rest i cur _; simp
  | cons line seg' ih =>
    intro rest i cur hin
    have h0 : inAnyBlock blocks i = true := by
      have := hin 0 (by simp)
      simpa using this
    have hstep : splitIntoUnitsAux blocks ((line :: seg') ++ rest) i cur =
        splitIntoUnitsAux blocks (seg' ++ rest) (i + 1) (cur ++ [line]) := by
      simp [splitIntoUnitsAux, h0]
    rw [hstep, ih rest (i + 1) (cur ++ [line])
      (fun j hj => by
        have := hin (j + 1) (by simp; omega)
        have harith : i + 1 + j = i + (j + 1) := by omega
        rw [harith]
        simpa using this)]
    have harith : i + 1 + seg'.length = i + (line :: seg').length := by
      simp; omega
    rw [harith]
    simp

/-- Whatever still follows, a nonempty infix of the accumulator survives
into one of the produced units. -/
theorem splitUnitsCur (blocks : List (Nat × Nat)) :
    ∀ (rest : List (List Char)) (i : Nat) (cur : List (List Char))
      (x : List (List Char)), x ≠ [] → x <:+: cur →
      ∃ u ∈ splitIntoUnitsAux blocks rest i cur, x <:+: u := by
  intro rest
  induction rest with
  | nil =>
    intro i cur x hx hinf
    have hcur : cur ≠ [] := by
      intro hcon
      rw [hcon] at hinf
      exact hx (List.eq_nil_of_infix_nil hinf)
    have hc : cur.isEmpty = false := by
      simpa [List.isEmpty_iff] using hcur
    refine ⟨cur, ?_, hinf⟩
    simp [splitIntoUnitsAux, hc]
  | cons line rest' ih =>
    intro i cur x hx hinf
    by_cases hb : inAnyBlock blocks i
    · have hstep : splitIntoUnitsAux blocks (line :: rest') i cur =
          splitIntoUnitsAux blocks rest' (i + 1) (cur ++ [line]) := by
        simp [splitIntoUnitsAux, hb]
      rw [hstep]
      exact ih (i + 1) (cur ++ [line]) x hx
        (hinf.trans (List.prefix_append cur [line]).isInfix)
    · by_cases hs : hasNonSpace line
      · have hstep : splitIntoUnitsAux blocks (line :: rest') i cur =
            splitIntoUnitsAux blocks rest' (i + 1) (cur ++ [line]) := by
          simp [splitIntoUnitsAux, hb, hs]
        rw [hstep]
        exact ih (i + 1) (cur ++ [line]) x hx
          (hinf.trans (List.prefix_append cur [line]).isInfix)
      · have hcur : cur ≠ [] := by
          intro hcon
          rw [hcon] at hinf
          exact hx (List.eq_nil_of_infix_nil hinf)
        have hc : cur.isEmpty = false := by
          simpa [List.isEmpty_iff] using hcur
        have hstep : splitIntoUnitsAux blocks (line :: rest') i cur =
            cur :: splitIntoUnitsAux blocks rest' (i + 1) [] := by
          simp [splitIntoUnitsAux, hb, hs, hc]
        rw [hstep]
        exact ⟨cur, by simp, hinf⟩

/-- Joining distributes over an append with a nonempty left part. -/
theorem joinSepAppendEq (sep : List Char) :
    ∀ (x q : List (List Char)), x ≠ [] →
      joinSep sep (x ++ q) =
        joinSep sep x ++ (if q.isEmpty then [] else sep ++ joinSep sep q) := by
  intro x
  induction x with
  | nil => intro q h; exact absurd rfl h
  | cons a x' ih =>
    intro q h
    cases x' with
    | nil =>
      cases q with
      | nil => simp [joinSep]
      | cons b q' =>
        rw [List.singleton_append, joinSepConsNe sep a _ (by simp)]
        simp [joinSep]
    | cons c x'' =>
      have h1 : joinSep sep ((a :: c :: x'') ++ q) =
          a ++ sep ++ joinSep sep ((c :: x'') ++ q) := by
        rw [List.cons_append]
        exact joinSepConsNe sep a _ (by simp)
      have h2 : joinSep sep (a :: c :: x'') =
          a ++ sep ++ joinSep sep (c :: x'') := rfl
      rw [h1, ih q (by simp), h2]
      simp [List.append_assoc]

/-- The join of a suffix is a suffix of the join. -/
theorem joinSepSuffix (sep : List Char) :
    ∀ (p y : List (List Char)), y ≠ [] →
      joinSep sep y <:+ joinSep sep (p ++ y) := by
  intro p
  induction p with
  | nil => intro y _; simp
  | cons a p' ih =>
    intro y hy
    have h1 : joinSep sep ((a :: p') ++ y) =
        a ++ sep ++ joinSep sep (p' ++ y) := by
      rw [List.cons_append]
      refine joinSepConsNe sep a _ ?_
      simp [hy]
    rw [h1, List.append_assoc]
    exact ((ih y hy).trans (List.suffix_append sep _)).trans
      (List.suffix_append a _)

/-- The join of a nonempty infix is an infix of the join. -/
theorem joinSepInfixOfInfix (sep : List Char) (x u : List (List Char))
    (hx : x ≠ []) (h : x <:+: u) :
    joinSep sep x <:+: joinSep sep u := by
  obtain ⟨p, q, hpq⟩ := h
  have h1 : joinSep sep x <+: joinSep sep (x ++ q) := by
    rw [joinSepAppendEq sep x q hx]
    exact ⟨_, rfl⟩
  have h2 : joinSep sep (x ++ q) <:+ joinSep sep (p ++ (x ++ q)) :=
    joinSepSuffix sep p (x ++ q) (by simp [hx])
  have h3 : p ++ (x ++ q) = u := by rw [← hpq]; simp
  rw [h3] at h2
  exact h1.isInfix.trans h2.isInfix

/-- Characters of a member survive into the join. -/
theorem memJoinSep (sep : List Char) :
    ∀ (u : List (List Char)) (x : List Char), x ∈ u →
      ∀ c ∈ x, c ∈ joinSep sep u := by
  intro u
  induction u with
  | nil => intro x hx; simp at hx
  | cons a u' ih =>
    intro x hx c hc
    rcases List.mem_cons.mp hx with h1 | h2
    · subst h1
      cases u' with
      | nil => simpa [joinSep] using hc
      | cons b u'' =>
        rw [joinSepConsNe sep x _ (by simp)]
        simp [hc]
    · cases u' with
      | nil => simp at h2
      | cons b u'' =>
        rw [joinSepConsNe sep a _ (by simp)]
        have := ih x h2 c hc
        simp [this]

/-- The head of a dropWhile result fails the predicate. -/
theorem dropWhileHeadFalse (p : Char → Bool) :
    ∀ (l : List Char) (c : Char) (r : List Char),
      l.dropWhile p = c :: r → p c = false := by
  intro l
  induction l with
  | nil => intro c r h; simp [List.dropWhile] at h
  | cons a l' ih =>
    intro c r h
    by_cases ha : p a
    · rw [List.dropWhile_cons_of_pos ha] at h
      exact ih c r h
    · rw [List.dropWhile_cons_of_neg ha] at h
      rw [← (List.cons.injEq _ _ _ _).mp h |>.1]
      simpa using ha

/-- The dropWhile result is a suffix of the input. -/
theorem dropWhileIsSuffix (p : Char → Bool) :
    ∀ l : List Char, l.dropWhile p <:+ l := by
  intro l
  induction l with
  | nil => simp
  | cons a l' ih =>
    by_cases ha : p a
    · rw [List.dropWhile_cons_of_pos ha]
      exact ih.trans (List.suffix_cons a l')
    · rw [List.dropWhile_cons_of_neg ha]

/-- A line matching the list-item pattern is not blank. -/
theorem listPatternNonblank (l : List Char)
    (h : listPatternMatch l = true) : hasNonSpace l = true := by
  cases hr : l.dropWhile isPySpace with
  | nil =>
    have hunfold : listPatternMatch l =
        (matchParenLower (l.dropWhile isPySpace) ||
          matchParenDigits (l.dropWhile isPySpace) ||
          matchLowerDot (l.dropWhile isPySpace) ||
          matchRomanDot (l.dropWhile isPySpace) ||
          matchBullet (l.dropWhile isPySpace) ||
          matchDash (l.dropWhile isPySpace)) := rfl
    rw [hunfold, hr] at h
    exact absurd h (by decide)
  | cons c r' =>
    have hc : isPySpace c = false := dropWhileHeadFalse isPySpace l c r' hr
    have hmem : c ∈ l := by
      have hsuf := dropWhileIsSuffix isPySpace l
      rw [hr] at hsuf
      exact hsuf.subset (by simp)
    unfold hasNonSpace
    rw [List.any_eq_true]
    exact ⟨c, hmem, by simp [hc]⟩

/-- The lines of every identified list block are carried contiguously
inside a single unit produced by the unit splitter's worker. -/
theorem blockInUnits (content : List Char) (b : Nat × Nat)
    (hb : b ∈ identifyListBlocks content) :
    ∃ u ∈ splitIntoUnitsAux (identifyListBlocks content) (splitNL content) 0 [],
      ((splitNL content).drop b.1).take (b.2 - b.1) <:+: u := by
  obtain ⟨hlt, hle, _⟩ := identifyListBlocksValid content b hb
  have hlenseg :
      (((splitNL content).drop b.1).take (b.2 - b.1)).length = b.2 - b.1 := by
    rw [List.length_take, List.length_drop]
    omega
  have hsegne : ((splitNL content).drop b.1).take (b.2 - b.1) ≠ [] := by
    intro hcon
    rw [hcon] at hlenseg
    simp at hlenseg
    omega
  have hdecomp : splitNL content =
      (splitNL content).take b.1 ++
        ((((splitNL content).drop b.1).take (b.2 - b.1)) ++
          (splitNL content).drop b.2) := by
    have h1 : ((splitNL content).drop b.1).drop (b.2 - b.1) =
        (splitNL content).drop b.2 := by
      rw [List.drop_drop]
      congr 1
      omega
    conv_lhs => rw [← List.take_append_drop b.1 (splitNL content)]
    congr 1
    conv_lhs =>
      rw [← List.take_append_drop (b.2 - b.1) ((splitNL content).drop b.1)]
    rw [h1]
  obtain ⟨E, cur2, hadv⟩ :=
    splitUnitsAdvance (identifyListBlocks content)
      ((splitNL content).take b.1)
      (((splitNL content).drop b.1).take (b.2 - b.1) ++
        (splitNL content).drop b.2) 0 []
  have hlentake : ((splitNL content).take b.1).length = b.1 := by
    rw [List.length_take]
    omega
  have hrun := splitUnitsRun (identifyListBlocks content)
    (((splitNL content).drop b.1).take (b.2 - b.1))
    ((splitNL content).drop b.2) b.1 cur2
    (fun j hj => by
      apply inAnyBlockOfMem _ b hb
      · omega
      · rw [hlenseg] at hj
        omega)
  have key : splitIntoUnitsAux (identifyListBlocks content)
      (splitNL content) 0 [] =
      E ++ splitIntoUnitsAux (identifyListBlocks content)
        ((splitNL content).drop b.2)
        (b.1 + (((splitNL content).drop b.1).take (b.2 - b.1)).length)
        (cur2 ++ ((splitNL content).drop b.1).take (b.2 - b.1)) := by
    conv_lhs => rw [hdecomp]
    rw [hadv, hlentake]
    simp only [Nat.zero_add]
    rw [hrun]
  obtain ⟨u, hu, hinf⟩ :=
    splitUnitsCur (identifyListBlocks content)
      ((splitNL content).drop b.2)
      (b.1 + (((splitNL content).drop b.1).take (b.2 - b.1)).length)
      (cur2 ++ ((splitNL content).drop b.1).take (b.2 - b.1))
      (((splitNL content).drop b.1).take (b.2 - b.1)) hsegne
      (List.suffix_append cur2 _).isInfix
  refine ⟨u, ?_, hinf⟩
  rw [key]
  exact List.mem_append_right E hu

/-- Every piece of the greedy loop's running buffer ends up inside one of
the emitted chunks. -/
theorem splitLargeAuxCurMem :
    ∀ (units cur : List (List Char)) (cwc : Nat) (x : List Char), x ∈ cur →
      ∃ parts ∈ splitLargeAux units cur cwc, x ∈ parts := by
  intro units
  induction units with
  | nil =>
    intro cur cwc x hx
    have hcur : cur.isEmpty = false := by
      simpa [List.isEmpty_iff] using List.ne_nil_of_mem hx
    refine ⟨cur, ?_, hx⟩
    simp [splitLargeAux, hcur]
  | cons u rest ih =>
    intro cur cwc x hx
    by_cases hcond :
        (cwc + countWords u > ABSOLUTE_MAX_WORDS && !cur.isEmpty) = true
    · refine ⟨cur, ?_, hx⟩
      simp [splitLargeAux, hcond]
    · simp only [splitLargeAux, hcond, if_false]
      exact ih (cur ++ [u]) _ x (List.mem_append_left _ hx)

/-- Every unit handed to the greedy loop appears whole inside one of the
emitted chunks. -/
theorem splitLargeAuxUnitMem :
    ∀ (units cur : List (List Char)) (cwc : Nat) (x : List Char), x ∈ units →
      ∃ parts ∈ splitLargeAux units cur cwc, x ∈ parts := by
  intro units
  induction units with
  | nil => intro cur cwc x hx; simp at hx
  | cons u rest ih =>
    intro cur cwc x hx
    rcases List.mem_cons.mp hx with h1 | h2
    · subst h1
      by_cases hcond :
          (cwc + countWords x > ABSOLUTE_MAX_WORDS && !cur.isEmpty) = true
      · simp only [splitLargeAux, hcond, if_true]
        have hmem : x ∈ (if (getOverlapText cur).isEmpty then [x]
            else [getOverlapText cur, x]) := by
          split <;> simp
        obtain ⟨parts, hp, hxp⟩ := splitLargeAuxCurMem rest _ _ x hmem
        exact ⟨parts, List.mem_cons_of_mem cur hp, hxp⟩
      · simp only [splitLargeAux, hcond, if_false]
        exact splitLargeAuxCurMem rest (cur ++ [x]) _ x (by simp)
    · by_cases hcond :
          (cwc + countWords u > ABSOLUTE_MAX_WORDS && !cur.isEmpty) = true
      · simp only [splitLargeAux, hcond, if_true]
        obtain ⟨parts, hp, hxp⟩ := ih _ _ x h2
        exact ⟨parts, List.mem_cons_of_mem cur hp, hxp⟩
      · simp only [splitLargeAux, hcond, if_false]
        exact ih (cur ++ [u]) _ x h2

/-- A member of the joined list is an infix of the join. -/
theorem elemInfixJoinSep (sep : List Char) :
    ∀ (parts : List (List Char)) (x : List Char), x ∈ parts →
      x <:+: joinSep sep parts := by
  intro parts
  induction parts with
  | nil => intro x hx; simp at hx
  | cons a r ih =>
    intro x hx
    rcases List.mem_cons.mp hx with h1 | h2
    · subst h1
      cases r with
      | nil => simp [joinSep]
      | cons b r' =>
        rw [joinSepConsNe sep x _ (by simp)]
        rw [List.append_assoc]
        exact (List.prefix_append x _).isInfix
    · cases r with
      | nil => simp at h2
      | cons b r' =>
        rw [joinSepConsNe sep a _ (by simp)]
        rw [List.append_assoc]
        exact (ih x h2).trans
          (((List.suffix_append sep _).trans (List.suffix_append a _)).isInfix)

/-- Each chunk-text of the greedy loop becomes the content of one chunk of
`_split_large_section`. -/
theorem chunkOfParts (s : Sect) (parts : List (List Char))
    (hp : parts ∈ splitLargeAux
      (splitIntoUnits s.content (identifyListBlocks s.content)) [] 0) :
    ∃ c ∈ splitLargeSection s, c.content = joinSep ['\n', '\n'] parts := by
  obtain ⟨n, hn, hget⟩ := List.getElem_of_mem hp
  unfold splitLargeSection
  have hnlt : n < ((splitLargeAux
      (splitIntoUnits s.content (identifyListBlocks s.content)) [] 0).map
      (joinSep ['\n', '\n'])).length := by
    simpa using hn
  have hzlen : n < ((List.range ((splitLargeAux
      (splitIntoUnits s.content (identifyListBlocks s.content)) [] 0).map
      (joinSep ['\n', '\n'])).length).zip ((splitLargeAux
      (splitIntoUnits s.content (identifyListBlocks s.content)) [] 0).map
      (joinSep ['\n', '\n']))).length := by
    rw [List.length_zip, List.length_range]
    omega
  refine ⟨_, List.mem_map_of_mem _ (List.getElem_mem hzlen), ?_⟩
  rw [List.getElem_zip]
  simp only [List.getElem_range, List.getElem_map, hget]
  rfl

/-- Claim C1: every list block identified in a section's content is
contained wholly within a single chunk of `chunk_section`: the joined text
of the block's line range is an infix of one chunk's content, also when the
block alone exceeds the maximum word count. -/
theorem c1_list_block_atomic (s : Sect) :
    ∀ b ∈ identifyListBlocks s.content,
      ∃ c ∈ chunkSection s,
        joinSep ['\n'] (((splitNL s.content).drop b.1).take (b.2 - b.1)) <:+:
          c.content := by
  intro b hb
  obtain ⟨hlt, hle, hpat⟩ := identifyListBlocksValid s.content b hb
  have hlenseg :
      (((splitNL s.content).drop b.1).take (b.2 - b.1)).length = b.2 - b.1 := by
    rw [List.length_take, List.length_drop]
    omega
  have hsegne : ((splitNL s.content).drop b.1).take (b.2 - b.1) ≠ [] := by
    intro hcon
    rw [hcon] at hlenseg
    simp at hlenseg
    omega
  have hsliceinf :
      ((splitNL s.content).drop b.1).take (b.2 - b.1) <:+: splitNL s.content :=
    (List.take_prefix _ _).isInfix.trans (List.drop_suffix _ _).isInfix
  have hcontentinf :
      joinSep ['\n'] (((splitNL s.content).drop b.1).take (b.2 - b.1)) <:+:
        s.content := by
    have h := joinSepInfixOfInfix ['\n'] _ _ hsegne hsliceinf
    rwa [joinSplitNL] at h
  have hcs : chunkSection s =
      if (MIN_CHUNK_WORDS ≤ s.word_count && s.word_count ≤ MAX_CHUNK_WORDS)
          = true then
        [createChunk s s.content 1 1]
      else if s.word_count < ABSOLUTE_MIN_WORDS then
        [createChunk s s.content 1 1]
      else splitLargeSection s := rfl
  rw [hcs]
  by_cases h1 :
      (MIN_CHUNK_WORDS ≤ s.word_count && s.word_count ≤ MAX_CHUNK_WORDS) = true
  · rw [if_pos h1]
    exact ⟨createChunk s s.content 1 1, by simp, hcontentinf⟩
  · rw [if_neg h1]
    by_cases h2 : s.word_count < ABSOLUTE_MIN_WORDS
    · rw [if_pos h2]
      exact ⟨createChunk s s.content 1 1, by simp, hcontentinf⟩
    · rw [if_neg h2]
      obtain ⟨u, hu, hinfu⟩ := blockInUnits s.content b hb
      have hjoininf :
          joinSep ['\n'] (((splitNL s.content).drop b.1).take (b.2 - b.1)) <:+:
            joinSep ['\n'] u :=
        joinSepInfixOfInfix _ _ _ hsegne hinfu
      have hb1lt : b.1 < (splitNL s.content).length := by omega
      have hlinemem :
          (splitNL s.content).getD b.1 [] ∈
            ((splitNL s.content).drop b.1).take (b.2 - b.1) := by
        have h0lt : 0 < (((splitNL s.content).drop b.1).take (b.2 - b.1)).length := by
          omega
        have heq : (((splitNL s.content).drop b.1).take (b.2 - b.1))[0] =
            (splitNL s.content).getD b.1 [] := by
          rw [List.getElem_take, List.getElem_drop,
            List.getD_eq_getElem _ _ hb1lt]
          simp
        rw [← heq]
        exact List.getElem_mem h0lt
      have hlinememu : (splitNL s.content).getD b.1 [] ∈ u :=
        hinfu.subset hlinemem
      obtain ⟨ch, hchmem, hchns⟩ := List.any_eq_true.mp
        (listPatternNonblank _ hpat)
      have hns : hasNonSpace (joinSep ['\n'] u) = true := by
        unfold hasNonSpace
        rw [List.any_eq_true]
        exact ⟨ch, memJoinSep ['\n'] u _ hlinememu ch hchmem, hchns⟩
      have humem : joinSep ['\n'] u ∈
          splitIntoUnits s.content (identifyListBlocks s.content) := by
        unfold splitIntoUnits
        exact List.mem_filter.mpr ⟨List.mem_map_of_mem _ hu, hns⟩
      obtain ⟨parts, hparts, huparts⟩ :=
        splitLargeAuxUnitMem _ [] 0 _ humem
      obtain ⟨c, hc, hcc⟩ := chunkOfParts s parts hparts
      refine ⟨c, hc, ?_⟩
      rw [hcc]
      exact hjoininf.trans (elemInfixJoinSep _ parts _ huparts)

/-- A small section holding one list block, for the C1 witness. -/
def c1wSect : Sect :=
  { section_number := "100".data, title := "T".data,
    content := "intro text\n(a) item one\n(b) item two".data,
    level := 1, source_file := "f.txt".data }

/-- Witness for C1: the atomicity theorem applied to the concrete block
spanning lines 1-2 of a concrete section. -/
theorem c1_list_block_atomic_witness :
    (1, 3) ∈ identifyListBlocks c1wSect.content ∧
    ∃ c ∈ chunkSection c1wSect,
      joinSep ['\n'] (((splitNL c1wSect.content).drop 1).take 2) <:+:
        c.content :=
  ⟨by decide, c1_list_block_atomic c1wSect (1, 3) (by decide)⟩

/-!
The `QualityReport` and `QualityValidator` of `improved_processor.py`.
Python float rates are modelled with exact rationals.
-/

/-- Quality metrics for a processing run (dataclass `QualityReport`). -/
structure QualityReport where
  total_chunks : Nat
  chunks_in_target_range : Nat
  chunks_below_minimum : Nat
  chunks_above_maximum : Nat
  chunks_with_split_lists : Nat
  chunks_with_parent_links : Nat
  orphaned_chunks : Nat
deriving Repr, DecidableEq

/-- The `size_compliance_rate` property. -/
def QualityReport.size_compliance_rate (r : QualityReport) : ℚ :=
  if r.total_chunks > 0 then
    (r.chunks_in_target_range : ℚ) / r.total_chunks
  else 0

/-- The `list_integrity_rate` property. -/
def QualityReport.list_integrity_rate (r : QualityReport) : ℚ :=
  if r.total_chunks > 0 then
    1 - (r.chunks_with_split_lists : ℚ) / r.total_chunks
  else 0

/-- The `hierarchy_coverage_rate` property. -/
def QualityReport.hierarchy_coverage_rate (r : QualityReport) : ℚ :=
  if r.total_chunks > 0 then
    (r.chunks_with_parent_links : ℚ) / r.total_chunks
  else 0

/-- The threshold `TARGET_CHUNK_SIZE_COMPLIANCE` of `QualityThresholds`. -/
def TARGET_CHUNK_SIZE_COMPLIANCE : ℚ := 9 / 10

/-- The itemized issues appended by `passes_production_threshold`; the
formatted message strings of the source are abstracted to tagged entries
carrying the same numeric payload. -/
inductive Issue
  | size_compliance (rate : ℚ)
  | list_integrity (rate : ℚ)
  | hierarchy_coverage (rate : ℚ)
  | orphaned (count : Nat)
deriving Repr, DecidableEq

/-- `QualityReport.passes_production_threshold`. -/
def passesProductionThreshold (r : QualityReport) : Bool × List Issue :=
  let issues :=
    (if r.size_compliance_rate < TARGET_CHUNK_SIZE_COMPLIANCE then
      [Issue.size_compliance r.size_compliance_rate] else []) ++
    (if r.list_integrity_rate < 1 then
      [Issue.list_integrity r.list_integrity_rate] else []) ++
    (if r.hierarchy_coverage_rate < 1 then
      [Issue.hierarchy_coverage r.hierarchy_coverage_rate] else []) ++
    (if r.orphaned_chunks > 0 then [Issue.orphaned r.orphaned_chunks] else [])
  (issues.length == 0, issues)

/-- `QualityValidator.validate_chunks` (the counted comprehensions are
expressed as filter lengths). -/
def validateChunks (chunks : List Chunk) : QualityReport :=
  { total_chunks := chunks.length
    chunks_in_target_range := (chunks.filter (fun c =>
      MIN_CHUNK_WORDS ≤ c.word_count && c.word_count ≤ MAX_CHUNK_WORDS)).length
    chunks_below_minimum := (chunks.filter (fun c =>
      c.word_count < ABSOLUTE_MIN_WORDS)).length
    chunks_above_maximum := (chunks.filter (fun c =>
      ABSOLUTE_MAX_WORDS < c.word_count)).length
    chunks_with_split_lists := (chunks.filter (fun c =>
      !c.has_complete_lists)).length
    chunks_with_parent_links := (chunks.filter (fun c =>
      c.parent_chunk_id.isSome)).length
    orphaned_chunks := (chunks.filter (fun c =>
      c.parent_chunk_id.isNone && c.position_in_section == 1)).length }

/-- Specification-side statement of the four thresholds of claim C5, read
directly over the chunk collection. -/
def specThresholds (chunks : List Chunk) : Prop :=
  9 * chunks.length ≤ 10 * (chunks.filter (fun c =>
    MIN_CHUNK_WORDS ≤ c.word_count && c.word_count ≤ MAX_CHUNK_WORDS)).length ∧
  (∀ c ∈ chunks, c.has_complete_lists = true) ∧
  (∀ c ∈ chunks, c.position_in_section ≠ 1 → c.parent_chunk_id.isSome = true) ∧
  (∀ c ∈ chunks, ¬(c.parent_chunk_id = none ∧ c.position_in_section = 1))

/-- Comparing a count ratio with nine tenths. -/
theorem ratioLtNineTenths (a b : Nat) (hb : 0 < b) :
    ((a : ℚ) / b < 9 / 10) ↔ 10 * a < 9 * b := by
  rw [div_lt_div_iff (by exact_mod_cast hb : (0 : ℚ) < b)
    (by norm_num : (0 : ℚ) < 10)]
  constructor
  · intro h
    have h2 : a * 10 < 9 * b := by exact_mod_cast h
    omega
  · intro h
    have h2 : a * 10 < 9 * b := by omega
    exact_mod_cast h2

/-- The integrity rate drops below one exactly when a split list exists. -/
theorem integrityLtOne (s t : Nat) (ht : 0 < t) :
    ((1 : ℚ) - (s : ℚ) / t < 1) ↔ 0 < s := by
  constructor
  · intro h
    by_contra hcon
    have hs : s = 0 := by omega
    rw [hs] at h
    simp at h
  · intro h
    have h1 : (0 : ℚ) < (s : ℚ) / t :=
      div_pos (by exact_mod_cast h) (by exact_mod_cast ht)
    linarith

/-- The coverage rate drops below one exactly when a parent link is
missing. -/
theorem coverageLtOne (w t : Nat) (ht : 0 < t) :
    ((w : ℚ) / t < 1) ↔ w < t := by
  rw [div_lt_one (by exact_mod_cast ht : (0 : ℚ) < t)]
  exact_mod_cast Iff.rfl

/-- The pass flag holds exactly when none of the four conditions appends an
issue. -/
theorem passesIff (r : QualityReport) :
    (passesProductionThreshold r).1 = true ↔
      ¬(r.size_compliance_rate < TARGET_CHUNK_SIZE_COMPLIANCE) ∧
      ¬(r.list_integrity_rate < 1) ∧
      ¬(r.hierarchy_coverage_rate < 1) ∧
      r.orphaned_chunks = 0 := by
  unfold passesProductionThreshold
  by_cases h1 : r.size_compliance_rate < TARGET_CHUNK_SIZE_COMPLIANCE <;>
    by_cases h2 : r.list_integrity_rate < 1 <;>
      by_cases h3 : r.hierarchy_coverage_rate < 1 <;>
        by_cases h4 : r.orphaned_chunks > 0 <;>
          simp [h1, h2, h3, h4] <;> omega

/-- The size issue is itemized whenever its threshold fails. -/
theorem issueSizeMem (r : QualityReport)
    (h : r.size_compliance_rate < TARGET_CHUNK_SIZE_COMPLIANCE) :
    Issue.size_compliance r.size_compliance_rate ∈
      (passesProductionThreshold r).2 := by
  unfold passesProductionThreshold
  simp [h]

/-- The integrity issue is itemized whenever its threshold fails. -/
theorem issueIntegrityMem (r : QualityReport) (h : r.list_integrity_rate < 1) :
    Issue.list_integrity r.list_integrity_rate ∈
      (passesProductionThreshold r).2 := by
  unfold passesProductionThreshold
  simp [h]

/-- The coverage issue is itemized whenever its threshold fails. -/
theorem issueCoverageMem (r : QualityReport)
    (h : r.hierarchy_coverage_rate < 1) :
    Issue.hierarchy_coverage r.hierarchy_coverage_rate ∈
      (passesProductionThreshold r).2 := by
  unfold passesProductionThreshold
  simp [h]

/-- The orphan issue is itemized whenever orphans exist. -/
theorem issueOrphanMem (r : QualityReport) (h : 0 < r.orphaned_chunks) :
    Issue.orphaned r.orphaned_chunks ∈ (passesProductionThreshold r).2 := by
  unfold passesProductionThreshold
  simp [h]

/-- Claim C5 (amended): on every nonempty chunk collection the validator's
pass flag holds exactly when the four thresholds hold (at least ninety per
cent of chunks in the 400-800 band, no split list, every non-first chunk
with a parent link combined with no orphaned first chunk forcing every
chunk to carry a parent link, and zero orphans), and each violated
threshold is itemized as an issue. On the empty collection the validator
reports failure (see the counterexample). -/
theorem c5_validator_pass_iff (chunks : List Chunk) (hne : chunks ≠ []) :
    ((passesProductionThreshold (validateChunks chunks)).1 = true ↔
      specThresholds chunks) ∧
    (¬(9 * chunks.length ≤ 10 * (chunks.filter (fun c =>
        MIN_CHUNK_WORDS ≤ c.word_count &&
          c.word_count ≤ MAX_CHUNK_WORDS)).length) →
      ∃ q, Issue.size_compliance q ∈
        (passesProductionThreshold (validateChunks chunks)).2) ∧
    ((∃ c ∈ chunks, c.has_complete_lists = false) →
      ∃ q, Issue.list_integrity q ∈
        (passesProductionThreshold (validateChunks chunks)).2) ∧
    ((∃ c ∈ chunks, c.position_in_section ≠ 1 ∧ c.parent_chunk_id = none) →
      ∃ q, Issue.hierarchy_coverage q ∈
        (passesProductionThreshold (validateChunks chunks)).2) ∧
    ((∃ c ∈ chunks, c.parent_chunk_id = none ∧ c.position_in_section = 1) →
      ∃ q, Issue.orphaned q ∈
        (passesProductionThreshold (validateChunks chunks)).2) := by
  have ht : 0 < chunks.length := List.length_pos.mpr hne
  have hsizerate : (validateChunks chunks).size_compliance_rate =
      ((chunks.filter (fun c => MIN_CHUNK_WORDS ≤ c.word_count &&
        c.word_count ≤ MAX_CHUNK_WORDS)).length : ℚ) / chunks.length := by
    simp [QualityReport.size_compliance_rate, validateChunks, ht]
  have hintrate : (validateChunks chunks).list_integrity_rate =
      1 - ((chunks.filter (fun c => !c.has_complete_lists)).length : ℚ) /
        chunks.length := by
    simp [QualityReport.list_integrity_rate, validateChunks, ht]
  have hcovrate : (validateChunks chunks).hierarchy_coverage_rate =
      ((chunks.filter (fun c => c.parent_chunk_id.isSome)).length : ℚ) /
        chunks.length := by
    simp [QualityReport.hierarchy_coverage_rate, validateChunks, ht]
  have horph : (validateChunks chunks).orphaned_chunks =
      (chunks.filter (fun c =>
        c.parent_chunk_id.isNone && c.position_in_section == 1)).length := rfl
  have E1 : ¬((validateChunks chunks).size_compliance_rate <
      TARGET_CHUNK_SIZE_COMPLIANCE) ↔
      9 * chunks.length ≤ 10 * (chunks.filter (fun c =>
        MIN_CHUNK_WORDS ≤ c.word_count &&
          c.word_count ≤ MAX_CHUNK_WORDS)).length := by
    rw [hsizerate]
    unfold TARGET_CHUNK_SIZE_COMPLIANCE
    rw [ratioLtNineTenths _ _ ht]
    omega
  have E2 : ¬((validateChunks chunks).list_integrity_rate < 1) ↔
      (∀ c ∈ chunks, c.has_complete_lists = true) := by
    rw [hintrate, integrityLtOne _ _ ht]
    constructor
    · intro h c hc
      by_contra hcon
      apply h
      have hcf : c ∈ chunks.filter (fun c => !c.has_complete_lists) :=
        List.mem_filter.mpr ⟨hc, by simp [Bool.not_eq_true] at hcon ⊢; exact hcon⟩
      exact List.length_pos.mpr (List.ne_nil_of_mem hcf)
    · intro h hpos
      obtain ⟨c, hcmem⟩ := List.exists_mem_of_length_pos hpos
      obtain ⟨hcin, hcp⟩ := List.mem_filter.mp hcmem
      rw [h c hcin] at hcp
      simp at hcp
  have E3 : ¬((validateChunks chunks).hierarchy_coverage_rate < 1) ↔
      (∀ c ∈ chunks, c.parent_chunk_id.isSome = true) := by
    rw [hcovrate, coverageLtOne _ _ ht]
    have hle := List.length_filter_le (fun c : Chunk =>
      c.parent_chunk_id.isSome) chunks
    constructor
    · intro h c hc
      have heq : (chunks.filter (fun c => c.parent_chunk_id.isSome)).length =
          chunks.length := by omega
      have hfil : chunks.filter (fun c => c.parent_chunk_id.isSome) = chunks :=
        (List.filter_sublist chunks).eq_of_length heq
      exact (List.filter_eq_self.mp hfil) c hc
    · intro h
      have hfil : chunks.filter (fun c => c.parent_chunk_id.isSome) = chunks :=
        List.filter_eq_self.mpr h
      rw [hfil]
      omega
  have E4 : (validateChunks chunks).orphaned_chunks = 0 ↔
      (∀ c ∈ chunks, ¬(c.parent_chunk_id = none ∧
        c.position_in_section = 1)) := by
    rw [horph, List.length_eq_zero, List.filter_eq_nil_iff]
    constructor
    · intro h c hc hcon
      exact h c hc (by simp [hcon.1, hcon.2])
    · intro h c hc hcon
      apply h c hc
      simp only [Bool.and_eq_true, Option.isNone_iff_eq_none,
        beq_iff_eq] at hcon
      exact hcon
  refine ⟨?_, ?_, ?_, ?_, ?_⟩
  · rw [passesIff, E1, E2, E3, E4]
    unfold specThresholds
    constructor
    · rintro ⟨a, b, c, d⟩
      exact ⟨a, b, fun x hx _ => c x hx, d⟩
    · rintro ⟨a, b, c, d⟩
      refine ⟨a, b, fun x hx => ?_, d⟩
      by_cases hpos : x.position_in_section = 1
      · cases hpar : x.parent_chunk_id with
        | none => exact absurd ⟨hpar, hpos⟩ (d x hx)
        | some v => simp
      · exact c x hx hpos
  · intro h
    refine ⟨(validateChunks chunks).size_compliance_rate, issueSizeMem _ ?_⟩
    by_contra hcon
    exact h (E1.mp hcon)
  · rintro ⟨c, hc, hcf⟩
    refine ⟨(validateChunks chunks).list_integrity_rate, issueIntegrityMem _ ?_⟩
    by_contra hcon
    have := E2.mp hcon c hc
    rw [this] at hcf
    exact absurd hcf (by simp)
  · rintro ⟨c, hc, hcpos, hcpar⟩
    refine ⟨(validateChunks chunks).hierarchy_coverage_rate,
      issueCoverageMem _ ?_⟩
    by_contra hcon
    have := E3.mp hcon c hc
    rw [hcpar] at this
    exact absurd this (by simp)
  · rintro ⟨c, hc, hcpar, hcpos⟩
    refine ⟨(validateChunks chunks).orphaned_chunks, issueOrphanMem _ ?_⟩
    rw [horph]
    apply List.length_pos.mpr
    apply List.ne_nil_of_mem (a := c)
    exact List.mem_filter.mpr ⟨hc, by simp [hcpar, hcpos]⟩

/-- Claim C5 counterexample: on the empty collection every threshold holds
vacuously, yet the validator reports failure, because the rate properties
return zero when no chunks exist and zero is below every target. -/
theorem c5_validator_counterexample :
    specThresholds ([] : List Chunk) ∧
    (passesProductionThreshold (validateChunks [])).1 = false := by
  constructor
  · exact ⟨by simp, by simp, by simp, by simp⟩
  · simp [passesProductionThreshold, validateChunks,
      QualityReport.size_compliance_rate, QualityReport.list_integrity_rate,
      QualityReport.hierarchy_coverage_rate, TARGET_CHUNK_SIZE_COMPLIANCE]

/-- A compliant chunk for the C5 witness. -/
def c5wChunk : Chunk :=
  { chunk_id := "CHK_100_1_abcd0123".data, content := "body".data,
    section_number := "100".data, section_title := "T".data,
    parent_chunk_id := some "099".data, child_chunk_ids := [],
    position_in_section := 1, total_in_section := 1,
    source_document := "f.txt".data, jurisdiction := "Idaho".data,
    document_type := "regulation".data, effective_date := none,
    category := "general".data, topic_tags := [], facility_types := [],
    word_count := 500, has_complete_lists := true,
    semantic_boundary := SemanticBoundary.section_end }

/-- Witness for C5: the amended theorem applied to a concrete singleton
collection. -/
theorem c5_validator_pass_iff_witness :
    (passesProductionThreshold (validateChunks [c5wChunk])).1 = true ↔
      specThresholds [c5wChunk] :=
  (c5_validator_pass_iff [c5wChunk] (by simp)).1

/-!
The `SectionMerger` (`RegulatoryDataPipeline._merge_small_sections` and
`_create_merged_section`).
-/

/-- The per-section pieces of the merged content: an optional inline
header line re-inserting the section number and title, then the body. -/
def combinedPieces (sections : List Sect) : List (List Char) :=
  sections.flatMap (fun s =>
    (if s.title.isEmpty then ([] : List (List Char))
     else [['\n'] ++ s.section_number ++ '.' :: ' ' :: s.title ++ ['\n']]) ++
    [s.content])

/-- `RegulatoryDataPipeline._create_merged_section`. -/
def createMergedSection (contents : List (List Char))
    (sections : List Sect) : Option Sect :=
  match sections with
  | [] => none
  | base :: _ =>
    let title :=
      if sections.length > 1 then
        base.title ++ ' ' :: 't' :: 'h' :: 'r' :: 'o' :: 'u' :: 'g' :: 'h' ::
          ' ' :: (sections.getLastD base).title
      else base.title
    some { section_number := base.section_number
           title := title
           content := joinSep ['\n', '\n'] (combinedPieces sections)
           level := base.level
           parent_section := base.parent_section
           children := sections.flatMap (fun s => s.children)
           source_file := base.source_file
           page_number := base.page_number
           effective_date := base.effective_date }

/-- The accumulation loop of `_merge_small_sections`: `pendingContent` and
`pendingMeta` mirror the two parallel pending lists of the source. -/
def mergeSmallSectionsAux :
    List Sect → List (List Char) → List Sect → List Sect
  | [], pendingContent, pendingMeta =>
    if pendingContent.isEmpty then []
    else
      match createMergedSection pendingContent pendingMeta with
      | some m => [m]
      | none => []
  | sec :: rest, pendingContent, pendingMeta =>
    if sec.word_count ≥ MIN_CHUNK_WORDS then
      (if pendingContent.isEmpty then []
       else
         match createMergedSection pendingContent pendingMeta with
         | some m => [m]
         | none => []) ++
      sec :: mergeSmallSectionsAux rest [] []
    else
      let pendingContent2 := pendingContent ++ [sec.content]
      let pendingMeta2 := pendingMeta ++ [sec]
      if (pendingContent2.map countWords).sum ≥ MIN_CHUNK_WORDS then
        (match createMergedSection pendingContent2 pendingMeta2 with
         | some m => [m]
         | none => []) ++ mergeSmallSectionsAux rest [] []
      else mergeSmallSectionsAux rest pendingContent2 pendingMeta2

/-- `RegulatoryDataPipeline._merge_small_sections`. -/
def mergeSmallSections (sections : List Sect) : List Sect :=
  if sections.isEmpty then sections
  else mergeSmallSectionsAux sections [] []

/-- Ordered containment: the needle strings appear inside the haystack, in
order and without overlap. -/
inductive Embeds : List (List Char) → List Char → Prop
  | nil (s : List Char) : Embeds [] s
  | cons (n : List Char) (ns : List (List Char)) (pre rest : List Char) :
      Embeds ns rest → Embeds (n :: ns) (pre ++ n ++ rest)

/-- Ordered containment survives prepending text. -/
theorem Embeds.prefixExt {ns : List (List Char)} {h : List Char}
    (he : Embeds ns h) (p : List Char) : Embeds ns (p ++ h) := by
  cases he with
  | nil s => exact Embeds.nil _
  | cons n ns pre rest htail =>
    rw [show p ++ (pre ++ n ++ rest) = (p ++ pre) ++ n ++ rest by simp]
    exact Embeds.cons n ns (p ++ pre) rest htail

/-- Ordered containments compose across concatenation. -/
theorem Embeds.append {ns1 ns2 : List (List Char)} {h1 h2 : List Char}
    (e1 : Embeds ns1 h1) (e2 : Embeds ns2 h2) :
    Embeds (ns1 ++ ns2) (h1 ++ h2) := by
  induction e1 with
  | nil s => exact e2.prefixExt s
  | cons n ns pre rest htail ih =>
    rw [show pre ++ n ++ rest ++ h2 = pre ++ n ++ (rest ++ h2) by simp]
    exact Embeds.cons n (ns ++ ns2) pre (rest ++ h2) ih

/-- The combined pieces of a nonempty tail are nonempty. -/
theorem combinedPiecesNe (s : Sect) (rest : List Sect) :
    combinedPieces (s :: rest) ≠ [] := by
  unfold combinedPieces
  by_cases h : s.title.isEmpty <;> simp [h]

/-- The merged content contains every merged section's body in order. -/
theorem embedsCombined :
    ∀ sections : List Sect,
      Embeds (sections.map (fun s => s.content))
        (joinSep ['\n', '\n'] (combinedPieces sections)) := by
  intro sections
  induction sections with
  | nil => exact Embeds.nil _
  | cons s rest ih =>
    have hsplit : combinedPieces (s :: rest) =
        ((if s.title.isEmpty then ([] : List (List Char))
          else [['\n'] ++ s.section_number ++ '.' :: ' ' :: s.title ++ ['\n']]) ++
          [s.content]) ++ combinedPieces rest := by
      unfold combinedPieces
      simp
    rw [hsplit, joinSepAppendEq _ _ _ (by simp)]
    by_cases hrest : (combinedPieces rest).isEmpty
    · have hrestnil : rest = [] := by
        cases rest with
        | nil => rfl
        | cons a b =>
          exact absurd (by simpa [List.isEmpty_iff] using hrest)
            (combinedPiecesNe a b)
      subst hrestnil
      rw [if_pos hrest]
      by_cases htitle : s.title.isEmpty
      · rw [if_pos htitle]
        exact Embeds.cons _ _ [] _ (Embeds.nil _)
      · rw [if_neg htitle]
        exact Embeds.cons _ _ _ _ (Embeds.nil _)
    · rw [if_neg hrest]
      by_cases htitle : s.title.isEmpty
      · rw [if_pos htitle]
        exact Embeds.cons _ _ [] _ (ih.prefixExt _)
      · rw [if_neg htitle]
        exact Embeds.cons _ _ _ _ (ih.prefixExt _)

/-- Flushing a nonempty pending buffer yields a merged section embedding
all buffered bodies in order. -/
theorem createMergedEmbeds (contents : List (List Char)) (base : Sect)
    (rest : List Sect) :
    ∃ m, createMergedSection contents (base :: rest) = some m ∧
      Embeds ((base :: rest).map (fun s => s.content)) m.content :=
  ⟨_, rfl, embedsCombined (base :: rest)⟩

/-- The merge loop never reorders and never drops section bodies: the
original bodies embed, in order, into the concatenated bodies of the
output. -/
theorem mergeAuxEmbeds :
    ∀ (sections : List Sect) (pc : List (List Char)) (pm : List Sect),
      pc.length = pm.length →
      Embeds (pm.map (fun s => s.content) ++ sections.map (fun s => s.content))
        (((mergeSmallSectionsAux sections pc pm).map
          (fun s => s.content)).flatten) := by
  intro sections
  induction sections with
  | nil =>
    intro pc pm hlen
    by_cases hpc : pc.isEmpty
    · have hpcnil : pc = [] := by simpa [List.isEmpty_iff] using hpc
      have hpm : pm = [] := by
        rw [hpcnil] at hlen
        exact List.length_eq_zero.mp hlen.symm
      subst hpm
      simp only [mergeSmallSectionsAux, hpc, if_true, List.map_nil,
        List.flatten_nil, List.nil_append]
      exact Embeds.nil _
    · cases pm with
      | nil =>
        exfalso
        rw [List.length_nil] at hlen
        rw [List.length_eq_zero.mp hlen] at hpc
        simp at hpc
      | cons base prest =>
        obtain ⟨m, hm, hemb⟩ := createMergedEmbeds pc base prest
        simp only [mergeSmallSectionsAux, hpc, if_false, hm, List.map_cons,
          List.map_nil, List.flatten_cons, List.flatten_nil, List.append_nil]
        simpa using hemb
  | cons sec rest ih =>
    intro pc pm hlen
    by_cases hbig : sec.word_count ≥ MIN_CHUNK_WORDS
    · have hrec := ih [] [] rfl
      simp only [List.map_nil, List.nil_append] at hrec
      by_cases hpc : pc.isEmpty
      · have hpcnil : pc = [] := by simpa [List.isEmpty_iff] using hpc
        have hpm : pm = [] := by
          rw [hpcnil] at hlen
          exact List.length_eq_zero.mp hlen.symm
        subst hpm
        simp only [mergeSmallSectionsAux, hbig, if_true, hpc, List.map_cons,
          List.nil_append, List.flatten_cons]
        exact Embeds.cons _ _ [] _ hrec
      · cases pm with
        | nil =>
          exfalso
          rw [List.length_nil] at hlen
          rw [List.length_eq_zero.mp hlen] at hpc
          simp at hpc
        | cons base prest =>
          obtain ⟨m, hm, hemb⟩ := createMergedEmbeds pc base prest
          simp only [mergeSmallSectionsAux, hbig, if_true, hpc, if_false, hm,
            List.map_cons, List.map_append, List.flatten_cons,
            List.cons_append, List.nil_append, List.singleton_append]
          have h2 : Embeds (sec.content :: rest.map (fun s => s.content))
              (sec.content ++ (((mergeSmallSectionsAux rest [] []).map
                (fun s => s.content)).flatten)) :=
            Embeds.cons _ _ [] _ hrec
          have h3 := hemb.append h2
          simpa using h3
    · by_cases hsum :
          (((pc ++ [sec.content]).map countWords).sum ≥ MIN_CHUNK_WORDS)
      · cases hcons : pm ++ [sec] with
        | nil => simp at hcons
        | cons base prest =>
          obtain ⟨m, hm, hemb⟩ :=
            createMergedEmbeds (pc ++ [sec.content]) base prest
          rw [← hcons] at hemb
          have hrec := ih [] [] rfl
          simp only [List.map_nil, List.nil_append] at hrec
          have hstep : mergeSmallSectionsAux (sec :: rest) pc pm =
              m :: mergeSmallSectionsAux rest [] [] := by
            simp only [mergeSmallSectionsAux, hbig, if_false, hsum, if_true]
            rw [hcons, hm]
            rfl
          rw [hstep]
          simp only [List.map_cons, List.flatten_cons]
          have h3 := hemb.append hrec
          simp only [List.map_append, List.map_cons, List.map_nil] at h3
          simpa using h3
      · have hstep : mergeSmallSectionsAux (sec :: rest) pc pm =
            mergeSmallSectionsAux rest (pc ++ [sec.content]) (pm ++ [sec]) := by
          simp only [mergeSmallSectionsAux, hbig, if_false, hsum]
        rw [hstep]
        have := ih (pc ++ [sec.content]) (pm ++ [sec]) (by simp [hlen])
        simp only [List.map_append, List.map_cons, List.map_nil] at this
        simpa using this

/-- Claim C6: merging never reorders sections and never drops a section's
content (the input bodies embed in order into the output bodies), and
merging three consecutive sections of 50, 60 and 310 words yields exactly
one merged section whose content contains all three original bodies in
their original order. -/
theorem c6_merge_correct :
    (∀ sections : List Sect,
      Embeds (sections.map (fun s => s.content))
        (((mergeSmallSections sections).map (fun s => s.content)).flatten)) ∧
    (∀ s1 s2 s3 : Sect, s1.word_count = 50 → s2.word_count = 60 →
      s3.word_count = 310 →
      ∃ m, mergeSmallSections [s1, s2, s3] = [m] ∧
        Embeds [s1.content, s2.content, s3.content] m.content) := by
  constructor
  · intro sections
    unfold mergeSmallSections
    by_cases hs : sections.isEmpty
    · have hnil : sections = [] := by simpa [List.isEmpty_iff] using hs
      subst hnil
      simp only [List.isEmpty_nil, if_true, List.map_nil, List.flatten_nil]
      exact Embeds.nil _
    · simp only [hs, if_false]
      have := mergeAuxEmbeds sections [] [] rfl
      simpa using this
  · intro s1 s2 s3 h1 h2 h3
    have hc1 : countWords s1.content = 50 := h1
    have hc2 : countWords s2.content = 60 := h2
    have hc3 : countWords s3.content = 310 := h3
    have st1 : mergeSmallSectionsAux [s1, s2, s3] [] [] =
        mergeSmallSectionsAux [s2, s3] [s1.content] [s1] := by
      simp [mergeSmallSectionsAux, Sect.word_count, hc1, MIN_CHUNK_WORDS]
    have st2 : mergeSmallSectionsAux [s2, s3] [s1.content] [s1] =
        mergeSmallSectionsAux [s3] [s1.content, s2.content] [s1, s2] := by
      simp [mergeSmallSectionsAux, Sect.word_count, hc1, hc2, MIN_CHUNK_WORDS]
    obtain ⟨m, hm, hemb⟩ := createMergedEmbeds
      [s1.content, s2.content, s3.content] s1 [s2, s3]
    refine ⟨m, ?_, by simpa using hemb⟩
    have st0 : mergeSmallSections [s1, s2, s3] =
        mergeSmallSectionsAux [s1, s2, s3] [] [] := by
      simp [mergeSmallSections]
    rw [st0, st1, st2]
    simp [mergeSmallSectionsAux, Sect.word_count, hc1, hc2, hc3,
      MIN_CHUNK_WORDS, hm]

/-- Concrete 50, 60 and 310-word sections for the C6 witness. -/
def c6aSect : Sect :=
  { section_number := "100".data, title := "A".data,
    content := joinSep [' '] (List.replicate 50 ['z']),
    level := 1, source_file := "f.txt".data }

/-- The 60-word section of the C6 witness. -/
def c6bSect : Sect :=
  { section_number := "101".data, title := "B".data,
    content := joinSep [' '] (List.replicate 60 ['z']),
    level := 1, source_file := "f.txt".data }

/-- The 310-word section of the C6 witness. -/
def c6cSect : Sect :=
  { section_number := "102".data, title := "C".data,
    content := joinSep [' '] (List.replicate 310 ['z']),
    level := 1, source_file := "f.txt".data }

/-- Witness for C6: the merge scenario applied to concrete sections. -/
theorem c6_merge_correct_witness :
    ∃ m, mergeSmallSections [c6aSect, c6bSect, c6cSect] = [m] ∧
      Embeds [c6aSect.content, c6bSect.content, c6cSect.content] m.content :=
  c6_merge_correct.2 c6aSect c6bSect c6cSect (by rfl) (by rfl) (by rfl)

/-!
The `Deduplicator`: `RegulatoryDataPipeline._deduplicate` of
`improved_processor.py` and `deduplicate_chunks` of `txt_processor.py`.
-/

/-- The content normalization shared by both deduplicators: lowercase,
whitespace-collapsed (Python `' '.join(content.lower().split())`). -/
def normalizeContent (content : List Char) : List Char :=
  joinSep [' '] (pyWords (lowerStr content))

/-- The loop of `RegulatoryDataPipeline._deduplicate`; the `seen_content`
set is modelled as the list of normalized strings inserted so far. -/
def deduplicateAux : List Chunk → List (List Char) → List Chunk
  | [], _ => []
  | chunk :: rest, seen =>
    let normalized := normalizeContent chunk.content
    if seen.contains normalized then deduplicateAux rest seen
    else chunk :: deduplicateAux rest (normalized :: seen)

/-- `RegulatoryDataPipeline._deduplicate`. -/
def deduplicate (chunks : List Chunk) : List Chunk :=
  deduplicateAux chunks []

/-- The near-duplicate test of `txt_processor.deduplicate_chunks`: equal
normalized content, or a substring relationship when both sides exceed 100
characters. -/
def isDuplicateTxt (normalized : List Char) (seen : List (List Char)) : Bool :=
  seen.any (fun s =>
    normalized = s ||
      (decide (normalized.length > 100) && decide (s.length > 100) &&
        (containsSub normalized s || containsSub s normalized)))

/-- The loop of `txt_processor.deduplicate_chunks`; the `seen_content` dict
is modelled as its key list in insertion order. -/
def deduplicateChunksTxtAux : List Chunk → List (List Char) → List Chunk
  | [], _ => []
  | chunk :: rest, seen =>
    let normalized := normalizeContent chunk.content
    if isDuplicateTxt normalized seen then deduplicateChunksTxtAux rest seen
    else chunk :: deduplicateChunksTxtAux rest (seen ++ [normalized])

/-- `txt_processor.deduplicate_chunks`. -/
def deduplicateChunksTxt (chunks : List Chunk) : List Chunk :=
  deduplicateChunksTxtAux chunks []

/-- Specification-side first-occurrence filter: keep each chunk whose
normalized content has not appeared before, dropping exact duplicates
only. -/
def keepFirstBy (f : Chunk → List Char) : List Chunk → List Chunk
  | [] => []
  | c :: rest =>
    c :: keepFirstBy f (rest.filter (fun d => !(f d == f c)))
termination_by l => l.length
decreasing_by
  have := List.length_filter_le (fun d => !(f d == f c)) rest
  simp only [List.length_cons]
  omega

/-- The dedup loop keeps exactly the first occurrence of each normalized
content among chunks whose normalization is not already seen. -/
theorem deduplicateAuxEq :
    ∀ (chunks : List Chunk) (seen : List (List Char)),
      deduplicateAux chunks seen =
        keepFirstBy (fun c => normalizeContent c.content)
          (chunks.filter (fun c =>
            !(seen.contains (normalizeContent c.content)))) := by
  intro chunks
  induction chunks with
  | nil =>
    intro seen
    rw [List.filter_nil, keepFirstBy]
    rfl
  | cons c rest ih =>
    intro seen
    by_cases hseen : seen.contains (normalizeContent c.content)
    · have hmem : normalizeContent c.content ∈ seen := by simpa using hseen
      have hstep : deduplicateAux (c :: rest) seen =
          deduplicateAux rest seen := by
        simp [deduplicateAux, hseen]
        intro h
        exact absurd hmem h
      rw [hstep, ih seen]
      congr 1
      simp [List.filter_cons, hmem]
    · have hnmem : normalizeContent c.content ∉ seen := by simpa using hseen
      have hstep : deduplicateAux (c :: rest) seen =
          c :: deduplicateAux rest (normalizeContent c.content :: seen) := by
        simp [deduplicateAux, hseen]
        intro h
        exact absurd h hnmem
      rw [hstep, ih (normalizeContent c.content :: seen)]
      have hfilter : (c :: rest).filter (fun d =>
          !(seen.contains (normalizeContent d.content))) =
          c :: rest.filter (fun d =>
            !(seen.contains (normalizeContent d.content))) := by
        simp [List.filter_cons, hnmem]
      rw [hfilter, keepFirstBy]
      congr 1
      rw [List.filter_filter]
      congr 1
      apply List.filter_congr
      intro d _
      simp only [List.contains_cons, Bool.not_or]

/-- The first-occurrence filter returns a subsequence of its input. -/
theorem keepFirstBySublist (f : Chunk → List Char) :
    ∀ l : List Chunk, (keepFirstBy f l).Sublist l := by
  have key : ∀ (n : Nat) (l : List Chunk), l.length ≤ n →
      (keepFirstBy f l).Sublist l := by
    intro n
    induction n with
    | zero =>
      intro l hl
      have hnil : l = [] := by
        cases l with
        | nil => rfl
        | cons a b => simp at hl
      rw [hnil, keepFirstBy]
    | succ n ih =>
      intro l hl
      cases l with
      | nil => rw [keepFirstBy]
      | cons c rest =>
        rw [keepFirstBy]
        apply List.Sublist.cons₂
        have hlen := List.length_filter_le (fun d => !(f d == f c)) rest
        have h1 := ih (rest.filter (fun d => !(f d == f c)))
          (by simp only [List.length_cons] at hl; omega)
        exact h1.trans (List.filter_sublist rest)
  exact fun l => key l.length l (le_refl _)

/-- Claim C7 (amended): the Deduplicator returns the subsequence of its
input obtained by keeping the first occurrence of each normalized content
and removing only chunks whose normalized content is identical to an
earlier chunk's; substring containment does not cause removal. -/
theorem c7_deduplicate_exact (chunks : List Chunk) :
    deduplicate chunks =
      keepFirstBy (fun c => normalizeContent c.content) chunks ∧
    (deduplicate chunks).Sublist chunks := by
  have h1 : deduplicate chunks =
      keepFirstBy (fun c => normalizeContent c.content) chunks := by
    rw [deduplicate, deduplicateAuxEq]
    congr 1
    simp
  exact ⟨h1, h1 ▸ keepFirstBySublist _ chunks⟩

/-- A chunk whose normalized content strictly contains the next chunk's,
for the C7 counterexample. -/
def c7aChunk : Chunk :=
  { chunk_id := "CHK_a".data, content := "a b".data,
    section_number := "100".data, section_title := "T".data,
    parent_chunk_id := none, child_chunk_ids := [],
    position_in_section := 1, total_in_section := 1,
    source_document := "f.txt".data, jurisdiction := "Idaho".data,
    document_type := "regulation".data, effective_date := none,
    category := "general".data, topic_tags := [], facility_types := [],
    word_count := 2, has_complete_lists := true,
    semantic_boundary := SemanticBoundary.section_end }

/-- A chunk whose normalized content is a strict substring of the previous
chunk's, for the C7 counterexample. -/
def c7bChunk : Chunk :=
  { chunk_id := "CHK_b".data, content := "a".data,
    section_number := "101".data, section_title := "T".data,
    parent_chunk_id := none, child_chunk_ids := [],
    position_in_section := 1, total_in_section := 1,
    source_document := "f.txt".data, jurisdiction := "Idaho".data,
    document_type := "regulation".data, effective_date := none,
    category := "general".data, topic_tags := [], facility_types := [],
    word_count := 1, has_complete_lists := true,
    semantic_boundary := SemanticBoundary.section_end }

/-- Claim C7 counterexample: a chunk whose normalized content is a strict
substring of another chunk's normalized content survives both
deduplicators, so substring-duplicates are not removed as the claim
states (the txt_processor variant also skips its substring test below 101
characters). -/
theorem c7_deduplicate_counterexample :
    containsSub (normalizeContent c7bChunk.content)
      (normalizeContent c7aChunk.content) = true ∧
    normalizeContent c7bChunk.content ≠ normalizeContent c7aChunk.content ∧
    deduplicate [c7aChunk, c7bChunk] = [c7aChunk, c7bChunk] ∧
    deduplicateChunksTxt [c7aChunk, c7bChunk] = [c7aChunk, c7bChunk] := by
  refine ⟨by decide, by decide, by decide, by decide⟩

/-!
`DocumentParser._parse_reference_links` with a model of `json.loads` and
`json.dumps(..., indent=2)` sufficient for it. Errors raised by the Python
code outside its `except json.JSONDecodeError` handler are modelled with
`Except.error` carrying the exception class name.
-/

/-- A JSON value; numbers are kept as their source lexeme since the
pipeline never computes with them. -/
inductive JsonValue
  | null
  | bool (b : Bool)
  | num (lexeme : List Char)
  | str (s : List Char)
  | arr (items : List JsonValue)
  | obj (fields : List (List Char × JsonValue))
deriving Repr

/-- JSON inter-token whitespace. -/
def jsonWs (c : Char) : Bool := c = ' ' || c = '\t' || c = '\n' || c = '\r'

/-- Skip JSON whitespace. -/
def skipJsonWs (s : List Char) : List Char := s.dropWhile jsonWs

/-- Value of one hex digit. -/
def hexVal (c : Char) : Option Nat :=
  if '0' ≤ c && c ≤ '9' then some (c.toNat - 48)
  else if 'a' ≤ c && c ≤ 'f' then some (c.toNat - 87)
  else if 'A' ≤ c && c ≤ 'F' then some (c.toNat - 55)
  else none

/-- Parse the remainder of a JSON string literal after its opening
quote. -/
def parseJsonStringAux : Nat → List Char → Option (List Char × List Char)
  | 0, _ => none
  | _, [] => none
  | fuel + 1, c :: rest =>
    if c = '"' then some ([], rest)
    else if c = '\\' then
      match rest with
      | [] => none
      | e :: rest2 =>
        let dec : Option (Char × List Char) :=
          if e = '"' then some ('"', rest2)
          else if e = '\\' then some ('\\', rest2)
          else if e = '/' then some ('/', rest2)
          else if e = 'b' then some ('\x08', rest2)
          else if e = 'f' then some ('\x0c', rest2)
          else if e = 'n' then some ('\n', rest2)
          else if e = 'r' then some ('\r', rest2)
          else if e = 't' then some ('\t', rest2)
          else if e = 'u' then
            match rest2 with
            | h1 :: h2 :: h3 :: h4 :: rest3 =>
              match hexVal h1, hexVal h2, hexVal h3, hexVal h4 with
              | some a, some b, some c2, some d =>
                some (Char.ofNat (((a * 16 + b) * 16 + c2) * 16 + d), rest3)
              | _, _, _, _ => none
            | _ => none
          else none
        match dec with
        | none => none
        | some (ch, rest3) =>
          match parseJsonStringAux fuel rest3 with
          | some (s, rest4) => some (ch :: s, rest4)
          | none => none
    else
      match parseJsonStringAux fuel rest with
      | some (s, rest4) => some (c :: s, rest4)
      | none => none

/-- Parse a JSON number, returning its lexeme; leading-zero integers are
rejected as in strict JSON. -/
def parseJsonNumber (s : List Char) : Option (List Char × List Char) :=
  let (neg, s1) : List Char × List Char :=
    match s with
    | '-' :: r => (['-'], r)
    | _ => ([], s)
  let ds := s1.takeWhile isDigitC
  let s2 := s1.dropWhile isDigitC
  if ds.isEmpty then none
  else if 1 < ds.length && ds.headD '0' = '0' then none
  else
    let (frac, s3) : List Char × List Char :=
      match s2 with
      | '.' :: r =>
        let fs := r.takeWhile isDigitC
        if fs.isEmpty then ([], s2) else ('.' :: fs, r.dropWhile isDigitC)
      | _ => ([], s2)
    let (ex, s4) : List Char × List Char :=
      match s3 with
      | e :: r =>
        if e = 'e' || e = 'E' then
          let (sgn, r2) : List Char × List Char :=
            match r with
            | '+' :: rr => (['+'], rr)
            | '-' :: rr => (['-'], rr)
            | _ => ([], r)
          let es := r2.takeWhile isDigitC
          if es.isEmpty then ([], s3)
          else (e :: sgn ++ es, r2.dropWhile isDigitC)
        else ([], s3)
      | [] => ([], s3)
    some (neg ++ ds ++ frac ++ ex, s4)

mutual

/-- Parse one JSON value (fuel-indexed recursion). -/
def parseJsonValue : Nat → List Char → Option (JsonValue × List Char)
  | 0, _ => none
  | fuel + 1, s =>
    match skipJsonWs s with
    | [] => none
    | c :: rest =>
      if c = '"' then
        match parseJsonStringAux fuel rest with
        | some (str, rest2) => some (JsonValue.str str, rest2)
        | none => none
      else if c = '[' then
        match parseJsonArray fuel rest true with
        | some (items, rest2) => some (JsonValue.arr items, rest2)
        | none => none
      else if c = '{' then
        match parseJsonObj fuel rest true with
        | some (fields, rest2) => some (JsonValue.obj fields, rest2)
        | none => none
      else if c = 't' then
        match rest with
        | 'r' :: 'u' :: 'e' :: rest2 => some (JsonValue.bool true, rest2)
        | _ => none
      else if c = 'f' then
        match rest with
        | 'a' :: 'l' :: 's' :: 'e' :: rest2 => some (JsonValue.bool false, rest2)
        | _ => none
      else if c = 'n' then
        match rest with
        | 'u' :: 'l' :: 'l' :: rest2 => some (JsonValue.null, rest2)
        | _ => none
      else
        match parseJsonNumber (c :: rest) with
        | some (lx, rest2) => some (JsonValue.num lx, rest2)
        | none => none

/-- Parse the items of a JSON array after the opening bracket. -/
def parseJsonArray : Nat → List Char → Bool →
    Option (List JsonValue × List Char)
  | 0, _, _ => none
  | fuel + 1, s, first =>
    match hskip : skipJsonWs s with
    | ']' :: rest => if first then some ([], rest) else none
    | _ =>
      match parseJsonValue fuel s with
      | none => none
      | some (v, rest) =>
        match skipJsonWs rest with
        | ',' :: rest2 =>
          match parseJsonArray fuel rest2 false with
          | some (vs, rest3) => some (v :: vs, rest3)
          | none => none
        | ']' :: rest2 => some ([v], rest2)
        | _ => none

/-- Parse the fields of a JSON object after the opening brace. -/
def parseJsonObj : Nat → List Char → Bool →
    Option (List (List Char × JsonValue) × List Char)
  | 0, _, _ => none
  | fuel + 1, s, first =>
    match skipJsonWs s with
    | '}' :: rest => if first then some ([], rest) else none
    | '"' :: rest =>
      match parseJsonStringAux fuel rest with
      | none => none
      | some (k, rest2) =>
        match skipJsonWs rest2 with
        | ':' :: rest3 =>
          match parseJsonValue fuel rest3 with
          | none => none
          | some (v, rest4) =>
            match skipJsonWs rest4 with
            | ',' :: rest5 =>
              match parseJsonObj fuel rest5 false with
              | some (fs, rest6) => some ((k, v) :: fs, rest6)
              | none => none
            | '}' :: rest5 => some ([(k, v)], rest5)
            | _ => none
        | _ => none
    | _ => none

end

/-- Model of `json.loads`: parse one value and require only whitespace to
follow. -/
def jsonLoads (s : List Char) : Option JsonValue :=
  match parseJsonValue (2 * s.length + 4) s with
  | some (v, rest) => if (skipJsonWs rest).isEmpty then some v else none
  | none => none

/-- Escaping of string characters in `json.dumps` output (common escapes). -/
def jsonEscape (s : List Char) : List Char :=
  s.flatMap (fun c =>
    if c = '"' then ['\\', '"']
    else if c = '\\' then ['\\', '\\']
    else if c = '\n' then ['\\', 'n']
    else if c = '\t' then ['\\', 't']
    else if c = '\r' then ['\\', 'r']
    else [c])

mutual

/-- Model of `json.dumps(value, indent=2)` at nesting level `lvl`. -/
def jsonDumpsVal : JsonValue → Nat → List Char
  | JsonValue.null, _ => "null".data
  | JsonValue.bool true, _ => "true".data
  | JsonValue.bool false, _ => "false".data
  | JsonValue.num lx, _ => lx
  | JsonValue.str s, _ => '"' :: (jsonEscape s ++ ['"'])
  | JsonValue.arr [], _ => "[]".data
  | JsonValue.arr (i :: is), lvl =>
    '[' :: '\n' :: (jsonDumpsItems (i :: is) (lvl + 1) ++
      '\n' :: (List.replicate (2 * lvl) ' ' ++ [']']))
  | JsonValue.obj [], _ => "\x7b\x7d".data
  | JsonValue.obj (f :: fs), lvl =>
    '{' :: '\n' :: (jsonDumpsFields (f :: fs) (lvl + 1) ++
      '\n' :: (List.replicate (2 * lvl) ' ' ++ ['\x7d']))

/-- Indented, comma-separated array items. -/
def jsonDumpsItems : List JsonValue → Nat → List Char
  | [], _ => []
  | [v], lvl => List.replicate (2 * lvl) ' ' ++ jsonDumpsVal v lvl
  | v :: rest, lvl =>
    List.replicate (2 * lvl) ' ' ++ jsonDumpsVal v lvl ++
      ',' :: '\n' :: jsonDumpsItems rest lvl

/-- Indented, comma-separated object fields. -/
def jsonDumpsFields : List (List Char × JsonValue) → Nat → List Char
  | [], _ => []
  | [f], lvl =>
    List.replicate (2 * lvl) ' ' ++ '"' :: (jsonEscape f.1 ++
      '"' :: ':' :: ' ' :: jsonDumpsVal f.2 lvl)
  | f :: rest, lvl =>
    List.replicate (2 * lvl) ' ' ++ '"' :: (jsonEscape f.1 ++
      '"' :: ':' :: ' ' :: jsonDumpsVal f.2 lvl) ++
      ',' :: '\n' :: jsonDumpsFields rest lvl

end

/-- Python `dict.get` over parsed object fields: the last binding of a
repeated key wins, as in a Python dict built by `json.loads`. -/
def lookupField (fields : List (List Char × JsonValue)) (key : List Char) :
    Option JsonValue :=
  (fields.reverse.find? (fun f => f.1 = key)).map (fun f => f.2)

/-- The identifier `REF-{i+1:03d}` of a reference section. -/
def refNumber (i : Nat) : List Char :=
  let ds := Nat.toDigits 10 (i + 1)
  'R' :: 'E' :: 'F' :: '-' :: (List.replicate (3 - ds.length) '0' ++ ds)

/-- The per-item loop of `_parse_reference_links`: each item must be an
object (anything else raises `AttributeError` at `item.get` in Python, or
the whole value raises `TypeError` at `enumerate` when not iterable). A
non-string `title` value is kept serialized, where Python would store the
raw object. -/
def buildRefSectionsAux : List JsonValue → Nat → List Char →
    Except (List Char) (List Sect)
  | [], _, _ => Except.ok []
  | item :: rest, i, filename =>
    match item with
    | JsonValue.obj fields =>
      let title :=
        match lookupField fields "title".data with
        | some (JsonValue.str s) => s
        | some v => jsonDumpsVal v 0
        | none => "Reference".data
      match buildRefSectionsAux rest (i + 1) filename with
      | Except.ok sections =>
        Except.ok
          ({ section_number := refNumber i, title := title,
             content := jsonDumpsVal item 0, level := 1,
             source_file := filename } :: sections)
      | Except.error e => Except.error e
    | _ => Except.error "AttributeError".data

/-- `DocumentParser._parse_reference_links`: a `json.loads` failure is
caught and yields an empty section list; a parsed value that is not a list
of objects propagates an uncaught exception, modelled as `Except.error`
(iterating a nonempty string or dict reaches `item.get` on a string and
raises `AttributeError`; a number, boolean or null raises `TypeError` at
`enumerate`; empty strings and dicts iterate zero times and return
an empty list). -/
def parseReferenceLinks (content : List Char) (filename : List Char) :
    Except (List Char) (List Sect) :=
  match jsonLoads content with
  | none => Except.ok []
  | some v =>
    match v with
    | JsonValue.arr items => buildRefSectionsAux items 0 filename
    | JsonValue.str s =>
      if s.isEmpty then Except.ok [] else Except.error "AttributeError".data
    | JsonValue.obj fields =>
      if fields.isEmpty then Except.ok []
      else Except.error "AttributeError".data
    | _ => Except.error "TypeError".data

/-- Claim C9 (amended): input that is not parseable as JSON yields an
empty Section list and never raises; valid JSON that is not a list of
objects raises an uncaught exception (see the counterexample). -/
theorem c9_reference_links_malformed (content filename : List Char)
    (h : jsonLoads content = none) :
    parseReferenceLinks content filename = Except.ok [] := by
  unfold parseReferenceLinks
  rw [h]

/-- Claim C9 counterexample: the input `5` is not parseable as the
expected record list, yet the code raises `TypeError` (not caught by the
`json.JSONDecodeError` handler) instead of returning an empty list. -/
theorem c9_reference_links_counterexample :
    parseReferenceLinks "5".data "refs.json".data =
      Except.error "TypeError".data := by rfl

/-- Witness for C9: the amended theorem applied to concrete non-JSON
input. -/
theorem c9_reference_links_malformed_witness :
    parseReferenceLinks "not json".data "refs.json".data = Except.ok [] :=
  c9_reference_links_malformed "not json".data "refs.json".data (by rfl)

/-!
The `ContentCleaner`. Each `re.sub` pattern is compiled by hand into a
deterministic matcher (the character classes involved are disjoint, so the
greedy runs never backtrack), driven by a generic leftmost-scan
substitution engine.
-/

/-- Leftmost-scan substitution: at each position try the matcher; on a
match emit its replacement and continue after the consumed text, otherwise
copy one character. Matchers always consume at least one character, so
`fuel = length` makes the scan complete. -/
def reSubFuel (tryAt : List Char → Option (List Char × List Char)) :
    Nat → List Char → List Char
  | 0, l => l
  | fuel + 1, l =>
    match tryAt l with
    | some (rep, rest) => rep ++ reSubFuel tryAt fuel rest
    | none =>
      match l with
      | [] => []
      | c :: rest => c :: reSubFuel tryAt fuel rest

/-- Model of `re.sub` for the cleaner's patterns. -/
def reSub (tryAt : List Char → Option (List Char × List Char))
    (l : List Char) : List Char :=
  reSubFuel tryAt l.length l

/-- Case-insensitive literal match, returning the rest of the input. -/
def matchLitCI : List Char → List Char → Option (List Char)
  | [], l => some l
  | _ :: _, [] => none
  | p :: ps, c :: cs => if asciiLower c = p then matchLitCI ps cs else none

/-- Match of `Page\s+\d+\s+of\s+\d+` (IGNORECASE) at the head. -/
def pageOfAt (l : List Char) : Bool :=
  match matchLitCI "page".data l with
  | none => false
  | some r1 =>
    if (r1.takeWhile isPySpace).isEmpty then false
    else
      let r2 := r1.dropWhile isPySpace
      if (r2.takeWhile isDigitC).isEmpty then false
      else
        let r3 := r2.dropWhile isDigitC
        if (r3.takeWhile isPySpace).isEmpty then false
        else
          match matchLitCI "of".data (r3.dropWhile isPySpace) with
          | none => false
          | some r4 =>
            if (r4.takeWhile isPySpace).isEmpty then false
            else !((r4.dropWhile isPySpace).takeWhile isDigitC).isEmpty

/-- Match of `^\s*\d+\s*$`: a standalone page number line. -/
def standaloneNumber (line : List Char) : Bool :=
  let r := line.dropWhile isPySpace
  let d := r.takeWhile isDigitC
  !d.isEmpty && (r.dropWhile isDigitC).all isPySpace

/-- Search of the compiled `NOISE_PATTERNS` alternation (IGNORECASE) in
one line. -/
def noiseSearch (line : List Char) : Bool :=
  anySuffix pageOfAt line ||
  standaloneNumber line ||
  containsCI "confidential".data line ||
  containsSub "---".data line ||
  containsSub "___".data line ||
  containsCI "[table of contents]".data line ||
  containsCI "reserved.".data line

/-- `ContentCleaner._remove_noise`. -/
def removeNoise (content : List Char) : List Char :=
  joinSep ['\n'] ((splitNL content).filter (fun line => !noiseSearch line))

/-- Python `str.zfill(2)` on a digit group. -/
def zfill2 (d : List Char) : List Char :=
  if d.length = 1 then '0' :: d else d

/-- Match of `\((\d{1,2})-(\d{1,2})-(\d{2})\)` at the head, replaced by
`[eff. 20YY-MM-DD]`. -/
def tryDate1 : List Char → Option (List Char × List Char)
  | '(' :: r1 =>
    let d1 := r1.takeWhile isDigitC
    let r2 := r1.dropWhile isDigitC
    if 1 ≤ d1.length && d1.length ≤ 2 then
      match r2 with
      | '-' :: r3 =>
        let d2 := r3.takeWhile isDigitC
        let r4 := r3.dropWhile isDigitC
        if 1 ≤ d2.length && d2.length ≤ 2 then
          match r4 with
          | '-' :: y1 :: y2 :: ')' :: rest =>
            if isDigitC y1 && isDigitC y2 then
              some ("[eff. 20".data ++ y1 :: y2 :: '-' :: zfill2 d1 ++
                '-' :: zfill2 d2 ++ [']'], rest)
            else none
          | _ => none
        else none
      | _ => none
    else none
  | _ => none

/-- Match of `(\d{1,2})/(\d{1,2})/(\d{4})` at the head, replaced by
`YYYY-MM-DD`. -/
def tryDate2 (l : List Char) : Option (List Char × List Char) :=
  let d1 := l.takeWhile isDigitC
  let r2 := l.dropWhile isDigitC
  if 1 ≤ d1.length && d1.length ≤ 2 then
    match r2 with
    | '/' :: r3 =>
      let d2 := r3.takeWhile isDigitC
      let r4 := r3.dropWhile isDigitC
      if 1 ≤ d2.length && d2.length ≤ 2 then
        match r4 with
        | '/' :: a :: b :: c :: d :: rest =>
          if isDigitC a && isDigitC b && isDigitC c && isDigitC d then
            some ([a, b, c, d] ++ '-' :: zfill2 d1 ++ '-' :: zfill2 d2, rest)
          else none
        | _ => none
      else none
    | _ => none
  else none

/-- The month table of `_month_to_date`. -/
def monthsTable : List (List Char × List Char) :=
  [("january", "01"), ("february", "02"), ("march", "03"), ("april", "04"),
   ("may", "05"), ("june", "06"), ("july", "07"), ("august", "08"),
   ("september", "09"), ("october", "10"), ("november", "11"),
   ("december", "12")].map (fun p => (p.1.data, p.2.data))

/-- Match of `(\w+)\s+(\d{1,2}),?\s+(\d{4})` at the head, replaced via
`_month_to_date` (unknown month names default to 01). -/
def tryMonthDate (l : List Char) : Option (List Char × List Char) :=
  let w := l.takeWhile isWordC
  let r1 := l.dropWhile isWordC
  if w.isEmpty then none
  else if (r1.takeWhile isPySpace).isEmpty then none
  else
    let r2 := r1.dropWhile isPySpace
    let d := r2.takeWhile isDigitC
    let r3 := r2.dropWhile isDigitC
    if 1 ≤ d.length && d.length ≤ 2 then
      let r4 := match r3 with
        | ',' :: rr => rr
        | _ => r3
      if (r4.takeWhile isPySpace).isEmpty then none
      else
        match r4.dropWhile isPySpace with
        | a :: b :: c :: dd :: rest =>
          if isDigitC a && isDigitC b && isDigitC c && isDigitC dd then
            let month := ((monthsTable.find? (fun m => m.1 = lowerStr w)).map
              (fun m => m.2)).getD "01".data
            some ([a, b, c, dd] ++ '-' :: month ++ '-' :: zfill2 d, rest)
          else none
        | _ => none
    else none

/-- `ContentCleaner._normalize_dates`. -/
def normalizeDates (content : List Char) : List Char :=
  reSub tryMonthDate (reSub tryDate2 (reSub tryDate1 content))

/-- Match of `§\s*(\d+)` at the head, replaced by `§ \1`. -/
def trySectionSym : List Char → Option (List Char × List Char)
  | '§' :: r =>
    let r2 := r.dropWhile isPySpace
    let d := r2.takeWhile isDigitC
    if d.isEmpty then none
    else some ('§' :: ' ' :: d, r2.dropWhile isDigitC)
  | _ => none

/-- Match of `42\s+CFR\s+§?\s*(\d+)` at the head, replaced by
`42 CFR § \1`. -/
def tryCFR : List Char → Option (List Char × List Char)
  | '4' :: '2' :: r =>
    if (r.takeWhile isPySpace).isEmpty then none
    else
      match r.dropWhile isPySpace with
      | 'C' :: 'F' :: 'R' :: r2 =>
        if (r2.takeWhile isPySpace).isEmpty then none
        else
          let r3 := r2.dropWhile isPySpace
          let r4 := match r3 with
            | '§' :: rr => rr
            | _ => r3
          let r5 := r4.dropWhile isPySpace
          let d := r5.takeWhile isDigitC
          if d.isEmpty then none
          else some ("42 CFR § ".data ++ d, r5.dropWhile isDigitC)
      | _ => none
  | _ => none

/-- Match of `IDAPA\s+(\d+)\.(\d+)\.(\d+)` at the head, replaced by
`IDAPA \1.\2.\3`. -/
def tryIDAPA : List Char → Option (List Char × List Char)
  | 'I' :: 'D' :: 'A' :: 'P' :: 'A' :: r =>
    if (r.takeWhile isPySpace).isEmpty then none
    else
      let r2 := r.dropWhile isPySpace
      let d1 := r2.takeWhile isDigitC
      if d1.isEmpty then none
      else
        match r2.dropWhile isDigitC with
        | '.' :: r3 =>
          let d2 := r3.takeWhile isDigitC
          if d2.isEmpty then none
          else
            match r3.dropWhile isDigitC with
            | '.' :: r4 =>
              let d3 := r4.takeWhile isDigitC
              if d3.isEmpty then none
              else some ("IDAPA ".data ++ d1 ++ '.' :: d2 ++ '.' :: d3,
                r4.dropWhile isDigitC)
            | _ => none
        | _ => none
  | _ => none

/-- `ContentCleaner._normalize_citations`. -/
def normalizeCitations (content : List Char) : List Char :=
  reSub tryIDAPA (reSub tryCFR (reSub trySectionSym content))

/-- The Python dict `NORMALIZATION_DICT`, in insertion order. -/
def NORMALIZATION_DICT : List (List Char × List Char) :=
  [("Centers for Medicare & Medicaid Services", "CMS"),
   ("Idaho Department of Health and Welfare", "IDHW"),
   ("Idaho Department of Health & Welfare", "IDHW"),
   ("Skilled Nursing Facility", "SNF"),
   ("skilled nursing facility", "SNF"),
   ("nursing home", "SNF"),
   ("Assisted Living Facility", "ALF"),
   ("assisted living facility", "ALF"),
   ("Residential Care Facility", "RCF"),
   ("State of Idaho", "Idaho"),
   ("ID", "Idaho")].map (fun p => (p.1.data, p.2.data))

/-- Python `str.replace` for a nonempty pattern (all non-overlapping
occurrences, left to right). -/
def strReplaceFuel : Nat → List Char → List Char → List Char → List Char
  | 0, s, _, _ => s
  | fuel + 1, s, old, new =>
    match s with
    | [] => []
    | c :: rest =>
      if isPrefixB old s then new ++ strReplaceFuel fuel (s.drop old.length) old new
      else c :: strReplaceFuel fuel rest old new

/-- Python `s.replace(old, new)`; every entry of the table is nonempty. -/
def strReplace (s old new : List Char) : List Char :=
  if old.isEmpty then s else strReplaceFuel s.length s old new

/-- `ContentCleaner._apply_normalization_dict`: literal, case-sensitive
replacements applied in table order. -/
def applyNormalizationDict (content : List Char) : List Char :=
  NORMALIZATION_DICT.foldl (fun acc p => strReplace acc p.1 p.2) content

/-- Sentence-ending punctuation triggering the list re-formatting, the
class `[.;:]`. -/
def isPunctPSC (c : Char) : Bool := c = '.' || c = ';' || c = ':'

/-- Match of `([.;:])\s*([a-z])\.\s+` at the head, replaced by a paragraph
break before the marker. -/
def tryList1 : List Char → Option (List Char × List Char)
  | c :: r =>
    if isPunctPSC c then
      match r.dropWhile isPySpace with
      | a :: '.' :: r3 =>
        if isLowerAZ a && !(r3.takeWhile isPySpace).isEmpty then
          some ([c, '\n', '\n', a, '.', ' '], r3.dropWhile isPySpace)
        else none
      | _ => none
    else none
  | [] => none

/-- Match of `([.;:])\s*\(([a-z])\)\s+` at the head. -/
def tryList2 : List Char → Option (List Char × List Char)
  | c :: r =>
    if isPunctPSC c then
      match r.dropWhile isPySpace with
      | '(' :: a :: ')' :: r3 =>
        if isLowerAZ a && !(r3.takeWhile isPySpace).isEmpty then
          some ([c, '\n', '\n', '(', a, ')', ' '], r3.dropWhile isPySpace)
        else none
      | _ => none
    else none
  | [] => none

/-- Match of `([.;:])\s*(\d+)\.\s+` at the head. -/
def tryList3 : List Char → Option (List Char × List Char)
  | c :: r =>
    if isPunctPSC c then
      let r2 := r.dropWhile isPySpace
      let d := r2.takeWhile isDigitC
      if d.isEmpty then none
      else
        match r2.dropWhile isDigitC with
        | '.' :: r3 =>
          if !(r3.takeWhile isPySpace).isEmpty then
            some (c :: '\n' :: '\n' :: d ++ '.' :: [' '],
              r3.dropWhile isPySpace)
          else none
        | _ => none
    else none
  | [] => none

/-- `ContentCleaner._format_lists`. -/
def formatLists (content : List Char) : List Char :=
  reSub tryList3 (reSub tryList2 (reSub tryList1 content))

/-- Match of `\n{4,}` at the head, replaced by three newlines. -/
def tryNL4 (l : List Char) : Option (List Char × List Char) :=
  match l with
  | '\n' :: _ =>
    let run := l.takeWhile (fun c => c = '\n')
    if 4 ≤ run.length then
      some (['\n', '\n', '\n'], l.dropWhile (fun c => c = '\n'))
    else none
  | _ => none

/-- `ContentCleaner._clean_whitespace`. -/
def cleanWhitespace (content : List Char) : List Char :=
  let c1 := reSub tryNL4 content
  let c2 := joinSep ['\n'] ((splitNL c1).map pyRStrip)
  pyStrip c2

/-- `ContentCleaner.clean`: all cleaning stages in source order. -/
def clean (content : List Char) : List Char :=
  cleanWhitespace (formatLists (applyNormalizationDict
    (normalizeCitations (normalizeDates (removeNoise content)))))

/-- Claim C10: `_apply_normalization_dict` performs literal, case-sensitive
replacements in table order, hitting substrings of longer tokens: the entry
`Idaho Department of Health and Welfare -> IDHW` fires first, after which
the later entry `ID -> Idaho` rewrites the `ID` inside `IDHW`, so both the
dictionary stage alone and the full `clean` pipeline turn the agency name
into `IdahoHW`, never leaving `IDHW` in the output; an all-uppercase
variant of a table key is untouched (case sensitivity). -/
theorem c10_normalization_order :
    applyNormalizationDict "Idaho Department of Health and Welfare".data
        = "IdahoHW".data ∧
    clean "Idaho Department of Health and Welfare".data = "IdahoHW".data ∧
    containsSub "IdahoHW".data
        (clean "Idaho Department of Health and Welfare".data) = true ∧
    containsSub "IDHW".data
        (clean "Idaho Department of Health and Welfare".data) = false ∧
    applyNormalizationDict "NURSING HOME".data = "NURSING HOME".data := by
  refine ⟨?_, ?_, ?_, ?_, ?_⟩ <;> rfl
